import Mathlib

/-!
# mini_serv: a shallow embedding of `mini_serv.c`

The development follows the C source function by function.

* Bytes are natural numbers (`0` is the NUL byte, `10` the line feed).
* The storage a `buffer` points to is a byte map `Nat → Nat` indexed by the
  offset from `data`.  A store through a pointer that `realloc` has returned
  is recorded in the map whatever the offset is; whether the offset lies inside
  the allocation is a separate question, stated with `size`.  The NULL pointer
  is the all-zero map, and a store through it stops the process: a function
  that can reach such a store returns `none` in the place of its return value,
  next to the memory as it is at that point.
* `size_t` arithmetic is taken modulo `2 ^ 64`; `int` values (descriptors,
  return codes) are integers.
* What the operating system decides (the outcome of `realloc`, `recv`, `send`,
  `accept` and `select`) is an explicit argument of the function that calls it.
-/

namespace MiniServ

/-! ## Bytes and memory -/

/-- Storage reachable from a pointer: the byte at each offset. -/
abbrev Mem := Nat → Nat

/-- The NULL pointer (and the zero-filled static storage). -/
def NULL : Mem := fun _ => 0

/-- Number of values of `size_t`. -/
def SIZE_MOD : Nat := 2 ^ 64

/-- Addition of two `size_t` values. -/
def size_add (a b : Nat) : Nat := (a + b) % SIZE_MOD

/-- Subtraction of two `size_t` values (wraps around below zero). -/
def size_sub (a b : Nat) : Nat := (a + SIZE_MOD - b % SIZE_MOD) % SIZE_MOD

/-- The bytes of an ASCII string literal. -/
def str (s : String) : List Nat := s.toList.map Char.toNat

/-- The line-feed byte. -/
def LF : Nat := 10

/-- Store of one byte: `m[i] = v`. -/
def store (m : Mem) (i v : Nat) : Mem := fun j => if j = i then v else m j

/-- Store of a run of bytes coming from other storage, at offset `off`. -/
def write_bytes (m : Mem) (off : Nat) (bs : List Nat) : Mem :=
  fun j => if off ≤ j ∧ j < off + bs.length then bs.getD (j - off) 0 else m j

/-- The `n` bytes found at offset `off`. -/
def read_bytes (m : Mem) (off n : Nat) : List Nat :=
  (List.range n).map (fun i => m (off + i))

/-- The C string held in a run of bytes: what precedes the first NUL. -/
def cstr (src : List Nat) : List Nat := src.takeWhile (fun b => b != 0)

/-- `strcpy(dst + off, src)`: the string and its terminating NUL are stored. -/
def strcpy (m : Mem) (off : Nat) (src : List Nat) : Mem :=
  write_bytes m off (cstr src ++ [0])

/-- `strstr(p + off, "\n")`: offset of the first line feed of the C string at
`off`, looking at most at `fuel` bytes. -/
def strstr_lf (m : Mem) : Nat → Nat → Option Nat
  | _, 0 => none
  | off, fuel + 1 =>
    if m off = 0 then none
    else if m off = LF then some off
    else strstr_lf m (off + 1) fuel

/-! ## `ft_memmove` -/

/-- First loop of `ft_memmove`: `while (n--) *dst++ = *src++;`. -/
def copy_fwd (m : Mem) : Nat → Nat → Nat → Mem
  | _, _, 0 => m
  | dst, src, n + 1 => copy_fwd (store m dst (m src)) (dst + 1) (src + 1) n

/-- Second loop of `ft_memmove`: `while (n--) dst[n] = src[n];`. -/
def copy_bwd (m : Mem) (dst src : Nat) : Nat → Mem
  | 0 => m
  | n + 1 => copy_bwd (store m (dst + n) (m (src + n))) dst src n

/-- `ft_memmove(dst, src, n)` inside one block of storage; `dst` and `src` are
offsets into it. -/
def ft_memmove (m : Mem) (dst src n : Nat) : Mem :=
  if dst ≠ src then
    if dst < src ∨ dst - src > n then copy_fwd m dst src n
    else copy_bwd m dst src n
  else m

/-! ## Buffers -/

/-- The `buffer` struct. -/
structure buffer where
  size : Nat
  len : Nat
  data : Mem

/-- The `client` struct. -/
structure client where
  r : buffer
  w : buffer

/-- The valid bytes of a buffer: its first `len` bytes. -/
def buffer.content (b : buffer) : List Nat := read_bytes b.data 0 b.len

/-- A zeroed `buffer` (static storage, or after `bzero`). -/
def buffer.zero : buffer := { size := 0, len := 0, data := NULL }

/-- A zeroed `client`. -/
def client.zero : client := { r := buffer.zero, w := buffer.zero }

/-- `buff_resize(buff, new_size)`.  `alloc` is the outcome of `realloc`: `none`
when it returns NULL, `some g` when it succeeds, `g` giving the indeterminate
bytes of the new block past the part copied from the old one. -/
def buff_resize (buff : buffer) (new_size : Nat) (alloc : Option Mem) : buffer × Int :=
  if new_size ≠ buff.size then
    let len1 := if new_size < buff.size then new_size else buff.len
    match alloc with
    | some g =>
      ({ size := new_size, len := len1,
         data := fun i => if i < min buff.size new_size then buff.data i else g i }, 0)
    | none => ({ size := 0, len := 0, data := NULL }, -1)
  else (buff, 0)

/-- `buff_clr(buff)`. -/
def buff_clr (_buff : buffer) : buffer := buffer.zero

/-- `buff_read(buff, fd)`.  `rcv` is what `recv` has for the caller: `none` for
an error (-1), `some bytes` for the bytes the peer has pending, of which at
most `size - len` are delivered (none at all on an orderly close). -/
def buff_read (buff : buffer) (rcv : Option (List Nat)) : buffer × Int :=
  match rcv with
  | none => (buff, -1)
  | some pending =>
    let got := pending.take (size_sub buff.size buff.len)
    if 0 < got.length then
      let len1 := size_add buff.len got.length
      ({ buff with len := len1,
                   data := store (write_bytes buff.data buff.len got) len1 0 },
       (got.length : Int))
    else (buff, 0)

/-- `buff_write(buff, fd)`.  `snd` is the value `send` returns. -/
def buff_write (buff : buffer) (snd : Int) : buffer × Int :=
  if 0 < snd then
    let len1 := size_sub buff.len snd.toNat
    ({ buff with len := len1, data := ft_memmove buff.data 0 snd.toNat len1 }, 1)
  else (buff, snd)

/-- `cli_io(client, fd, readable, writable)`; closing the descriptor is not
part of the state. -/
def cli_io (c : client) (readable writable : Bool) (snd : Int)
    (rcv : Option (List Nat)) : client × Int :=
  let wr := if writable then buff_write c.w snd else (c.w, 1)
  if 0 < wr.2 ∧ readable = true then
    let rd := buff_read c.r rcv
    if 0 < rd.2 then
      match strstr_lf rd.1.data (rd.1.len - rd.2.toNat) (rd.2.toNat + 1) with
      | some msg_end => ({ r := rd.1, w := wr.1 }, (msg_end : Int) + 1)
      | none => ({ r := rd.1, w := wr.1 }, rd.2)
    else ({ r := rd.1, w := wr.1 }, rd.2)
  else ({ r := c.r, w := wr.1 }, wr.2)

/-! ## `sprintf` and the broadcast -/

/-- Decimal digits of `n`, most significant first, put in front of `acc`. -/
def itoa_aux : Nat → Nat → List Nat → List Nat
  | 0, _, acc => acc
  | fuel + 1, n, acc =>
    if n < 10 then (48 + n) :: acc
    else itoa_aux fuel (n / 10) ((48 + n % 10) :: acc)

/-- What `%d` prints for an `int`. -/
def fmt_d (n : Int) : List Nat :=
  if n < 0 then 45 :: itoa_aux (n.natAbs + 1) n.natAbs []
  else itoa_aux (n.toNat + 1) n.toNat []

/-- The two `sprintf` calls of `broadcast_msg`. -/
def make_pfx (sender_id : Int) : List Nat :=
  if sender_id < 0 then str "server: client " ++ fmt_d (-sender_id) ++ str " "
  else str "client " ++ fmt_d sender_id ++ str ": "

/-- The table of clients, indexed by slot. -/
abbrev Table := Nat → client

/-- Size of the table `c` of `listener_loop`. -/
def MAX_CLIENTS : Nat := 64

/-- Assignment `clients[id] = c`. -/
def Table.set (clients : Table) (id : Nat) (c : client) : Table :=
  fun j => if j = id then c else clients j

/-- A slot is live when its input buffer has a capacity. -/
def live (c : client) : Prop := c.r.size ≠ 0

instance (c : client) : Decidable (live c) := by unfold live; infer_instance

/-- Body of the loop of `broadcast_msg` for one slot; `len` is the total length
(prefix included).  Returns the slot and `ret`.  When the growth has failed,
`buff_resize` has left `data = NULL` with `len = 0` and `size = 0`, and the
first `strcpy` stores through the NULL pointer: the body does not complete,
the result is `none` next to the slot as `buff_resize` left it. -/
def bcast_one (c : client) (pfx msg : List Nat) (len : Nat) (alloc : Option Mem) :
    client × Option Int :=
  if c.r.size ≠ 0 then
    let rs := if size_sub c.w.size c.w.len < len
      then buff_resize c.w (size_add (size_add c.w.size len) 1) alloc
      else (c.w, 0)
    if rs.2 = 0 then
      let d1 := strcpy rs.1.data rs.1.len pfx
      let d2 := strcpy d1 (rs.1.len + pfx.length) msg
      ({ c with w := { rs.1 with data := d2, len := size_add rs.1.len len } }, some rs.2)
    else ({ c with w := rs.1 }, none)
  else (c, some 0)

/-- The loop `for (id = ..; ret == 0 && id < n; id++)`, from `id` on, with
`k` slots left below `n`.  It ends when the slots are exhausted, when a body
has left `ret` non-zero, or when a body has stopped the process (`none`). -/
def bcast_loop (pfx msg : List Nat) (len : Nat) (alloc : Nat → Option Mem) :
    Table → Nat → Nat → Table × Option Int
  | clients, _, 0 => (clients, some 0)
  | clients, id, k + 1 =>
    let one := bcast_one (clients id) pfx msg len (alloc id)
    if one.2 = some 0 then bcast_loop pfx msg len alloc (clients.set id one.1) (id + 1) k
    else (clients.set id one.1, one.2)

/-- `broadcast_msg(clients, n, sender_id, msg, len)`.  `msg` is the bytes at
the pointer `msg`; `alloc id` is the outcome of the `realloc` made for
recipient `id`, if one is made.  The second component is the value returned,
or `none` when the process is stopped by a store through the NULL pointer;
the first is the table as it is then. -/
def broadcast_msg (clients : Table) (n : Int) (sender_id : Int) (msg : List Nat)
    (len : Nat) (alloc : Nat → Option Mem) : Table × Option Int :=
  let pfx := make_pfx sender_id
  bcast_loop pfx msg (size_add len pfx.length) alloc clients 0 n.toNat

/-! ## The listener -/

/-- `listener_accept(clients, listen_fd, &highest_fd)`.  `fd` is what `accept`
returns, `alloc_in` the outcome of the `realloc` of the input buffer and
`alloc` those of the arrival broadcast.  Returns the table, `*highest_fd` and
the returned descriptor (`none` when the process is stopped inside the
broadcast). -/
def listener_accept (clients : Table) (listen_fd highest_fd fd : Int)
    (alloc_in : Option Mem) (alloc : Nat → Option Mem) : Table × Int × Option Int :=
  if fd ≠ -1 then
    let slot := (fd - listen_fd - 1).toNat
    let rs := buff_resize (clients slot).r 4096 alloc_in
    let c1 := clients.set slot { clients slot with r := rs.1 }
    if rs.2 = -1 then (c1, highest_fd, some (-1))
    else
      let h := if fd > highest_fd then fd else highest_fd
      let b := broadcast_msg c1 (h - listen_fd) (-(fd - listen_fd - 1))
        (str "just arrived\n") 13 alloc
      (b.1, h, b.2.map (fun _ => fd))
  else (clients, highest_fd, some fd)

/-- The loop of `listener_select` from `id` on, `k` slots left; the pair is
`(rfds, wfds)`. -/
def select_loop (clients : Table) (listen_fd : Int) :
    Nat → Nat → List Int × List Int → List Int × List Int
  | _, 0, sets => sets
  | id, k + 1, sets =>
    let r1 := if (clients id).r.size ≠ 0 then (listen_fd + 1 + id) :: sets.1 else sets.1
    let w1 := if (clients id).w.len ≠ 0 then (listen_fd + 1 + id) :: sets.2 else sets.2
    select_loop clients listen_fd (id + 1) k (r1, w1)

/-- The descriptor sets `listener_select` hands to `select`: `(rfds, wfds)`. -/
def listener_select (clients : Table) (listen_fd highest_fd : Int) :
    List Int × List Int :=
  select_loop clients listen_fd 0 (highest_fd - listen_fd).toNat ([listen_fd], [])

/-- The loop of `listener_hfd`: `k` slots left, the next one visited is
`k - 1`. -/
def hfd_loop (clients : Table) : Nat → Int → Int
  | 0, new_highest => new_highest
  | k + 1, new_highest =>
    hfd_loop clients k (if (clients k).r.size ≠ 0 then (k : Int) else new_highest)

/-- `listener_hfd(clients, listener_fd, highest_fd)`. -/
def listener_hfd (clients : Table) (listener_fd highest_fd : Int) : Int :=
  listener_fd + 1 + hfd_loop clients (highest_fd - listener_fd).toNat (-1)

/-- What the operating system answers during one pass of the `while` loop of
`listener_loop`. -/
structure Env where
  /-- value returned by `select` -/
  status : Int
  /-- descriptors `select` reports readable -/
  ready_r : Int → Bool
  /-- descriptors `select` reports writable -/
  ready_w : Int → Bool
  /-- value returned by `accept` -/
  accept_fd : Int
  /-- `realloc` of the accepted client's input buffer -/
  alloc_in : Option Mem
  /-- `realloc`s of the arrival broadcast, by recipient -/
  alloc_arrival : Nat → Option Mem
  /-- value returned by `send` for a slot -/
  snd : Nat → Int
  /-- outcome of `recv` for a slot -/
  rcv : Nat → Option (List Nat)
  /-- `realloc`s of the broadcast made for a slot, by recipient -/
  alloc_out : Nat → Nat → Option Mem

/-- The variables of `listener_loop`: the table `c` and `hfd`; `fault` tells
that the process has been stopped by a store through the NULL pointer. -/
structure Server where
  c : Table
  hfd : Int
  fault : Bool := false

/-- The state `listener_loop` starts from. -/
def Server.init (fd : Int) : Server := { c := fun _ => client.zero, hfd := fd }

/-- `FD_ISSET(fd, &set)`. -/
def FD_ISSET (fd : Int) (set : List Int) : Bool := decide (fd ∈ set)

/-- The removal of the first `s` bytes of an input buffer in `listener_loop`:
`r.len -= s; ft_memmove(r.data, r.data + s, r.len);`. -/
def remove_front (r : buffer) (s : Nat) : buffer :=
  let len1 := size_sub r.len s
  { r with len := len1, data := ft_memmove r.data 0 s len1 }

/-- Body of the `for` loop of `listener_loop` for slot `id`; `s` is the
variable `s`.  When a broadcast stops the process, `fault` is set and `s` is
not assigned. -/
def service (fd : Int) (rfds wfds : List Int) (env : Env) (st : Server) (s : Int)
    (id : Nat) : Server × Int :=
  if (st.c id).r.size ≠ 0 then
    let cfd := fd + 1 + (id : Int)
    let io := cli_io (st.c id) (FD_ISSET cfd rfds) (FD_ISSET cfd wfds)
      (env.snd id) (env.rcv id)
    let c1 := st.c.set id io.1
    if io.2 = 0 then
      let hfd1 := if cfd = st.hfd then listener_hfd c1 fd (st.hfd - 1) else st.hfd
      let c2 := c1.set id { r := buff_clr (c1 id).r, w := buff_clr (c1 id).w }
      let b := broadcast_msg c2 (hfd1 - fd) (-(id : Int)) (str "just left\n") 10
        (env.alloc_out id)
      match b.2 with
      | some ret => ({ c := b.1, hfd := hfd1 }, ret)
      | none => ({ c := b.1, hfd := hfd1, fault := true }, s)
    else if 1 < io.2 then
      let msg := read_bytes (c1 id).r.data 0 ((c1 id).r.len + 1)
      let b := broadcast_msg c1 (st.hfd - fd) (id : Int) msg io.2.toNat (env.alloc_out id)
      match b.2 with
      | some ret =>
        if ret = 0 then
          ({ c := b.1.set id { b.1 id with r := remove_front (b.1 id).r io.2.toNat },
             hfd := st.hfd }, 1)
        else ({ c := b.1, hfd := st.hfd }, -1)
      | none => ({ c := b.1, hfd := st.hfd, fault := true }, s)
    else ({ c := c1, hfd := st.hfd }, io.2)
  else (st, s)

/-- The loop `for (id = 0; id < hfd - fd; id++)` from `id` on; it goes no
further once the process is stopped.  `hfd` never grows inside the loop, so
`k` passes are enough when `k` is at least `hfd - fd - id` at the start. -/
def service_loop (fd : Int) (rfds wfds : List Int) (env : Env) :
    Server × Int → Nat → Nat → Server × Int
  | st, _, 0 => st
  | st, id, k + 1 =>
    if st.1.fault = false ∧ (id : Int) < st.1.hfd - fd then
      service_loop fd rfds wfds env (service fd rfds wfds env st.1 st.2 id) (id + 1) k
    else st

/-- One pass of the `while` loop of `listener_loop`, after `select` has
returned a positive status: the sets left by `select` are the descriptors it
was given that are ready. -/
def loop_body (fd : Int) (env : Env) (st : Server) : Server × Int :=
  let sets := listener_select st.c fd st.hfd
  let rfds := sets.1.filter env.ready_r
  let wfds := sets.2.filter env.ready_w
  let st1 : Server :=
    if FD_ISSET fd rfds = true then
      let a := listener_accept st.c fd st.hfd env.accept_fd env.alloc_in env.alloc_arrival
      { c := a.1, hfd := a.2.1, fault := a.2.2.isNone }
    else st
  service_loop fd rfds wfds env (st1, env.status) 0 (st1.hfd - fd).toNat

/-- The `while` loop of `listener_loop` over successive answers of the
operating system; it stops at the first `select` status that is not
positive, or when the process is stopped. -/
def run (fd : Int) : List Env → Server → Server
  | [], st => st
  | env :: rest, st =>
    if st.fault = false ∧ 0 < env.status then run fd rest (loop_body fd env st).1 else st

/-- States the `while` loop of `listener_loop` can be in when it calls
`listener_select`. -/
def Reachable (fd : Int) (st : Server) : Prop :=
  ∃ envs : List Env, run fd envs (Server.init fd) = st ∧ st.fault = false

/-! ## The I/O attempts of one pass and the stores of a broadcast -/

/-- A call to `send` or to `recv` on the descriptor of a slot. -/
inductive io_call where
  | send (id : Nat)
  | recv (id : Nat)
deriving DecidableEq

/-- The slot a call is made for. -/
def io_call.slot : io_call → Nat
  | io_call.send id => id
  | io_call.recv id => id

/-- The calls `cli_io` makes for slot `id`, in order: `send` inside
`buff_write` when `writable`, then `recv` inside `buff_read` when the write
has not failed and `readable`. -/
def cli_io_calls (c : client) (id : Nat) (readable writable : Bool) (snd : Int) :
    List io_call :=
  let wr := if writable then buff_write c.w snd else (c.w, 1)
  (if writable then [io_call.send id] else [])
    ++ (if 0 < wr.2 ∧ readable = true then [io_call.recv id] else [])

/-- The calls made by the body of the `for` loop of `listener_loop` for slot
`id`. -/
def service_calls (fd : Int) (rfds wfds : List Int) (env : Env) (st : Server) (id : Nat) :
    List io_call :=
  if (st.c id).r.size ≠ 0 then
    cli_io_calls (st.c id) id (FD_ISSET (fd + 1 + (id : Int)) rfds)
      (FD_ISSET (fd + 1 + (id : Int)) wfds) (env.snd id)
  else []

/-- The calls made by the `for` loop of `listener_loop` from `id` on; the
state goes through `service` as in `service_loop`. -/
def service_loop_calls (fd : Int) (rfds wfds : List Int) (env : Env) :
    Server × Int → Nat → Nat → List io_call
  | _, _, 0 => []
  | st, id, k + 1 =>
    if st.1.fault = false ∧ (id : Int) < st.1.hfd - fd then
      service_calls fd rfds wfds env st.1 id
        ++ service_loop_calls fd rfds wfds env (service fd rfds wfds env st.1 st.2 id) (id + 1) k
    else []

/-- The calls to `send` and `recv` made by one pass of the `while` loop of
`listener_loop`, in order. -/
def loop_body_calls (fd : Int) (env : Env) (st : Server) : List io_call :=
  let sets := listener_select st.c fd st.hfd
  let rfds := sets.1.filter env.ready_r
  let wfds := sets.2.filter env.ready_w
  let st1 : Server :=
    if FD_ISSET fd rfds = true then
      let a := listener_accept st.c fd st.hfd env.accept_fd env.alloc_in env.alloc_arrival
      { c := a.1, hfd := a.2.1, fault := a.2.2.isNone }
    else st
  service_loop_calls fd rfds wfds env (st1, env.status) 0 (st1.hfd - fd).toNat

/-- Order of two calls of one pass: the first is for a lower slot, or both are
for the same slot and the first is its `send`, the second its `recv`. -/
def serviced_before (a b : io_call) : Prop :=
  a.slot < b.slot ∨ ∃ id, a = io_call.send id ∧ b = io_call.recv id

/-- Offsets `strcpy(dst + off, src)` stores to: those of the string and that
of its terminating NUL. -/
def strcpy_stores (off : Nat) (src : List Nat) : List Nat :=
  List.range' off ((cstr src).length + 1)

/-- Offsets the two `strcpy` of the loop body of `broadcast_msg` store to in
the output storage of the slot, and the capacity `w.size` at that time (after
the growth, if one is made). -/
def bcast_one_stores (c : client) (pfx msg : List Nat) (len : Nat) (alloc : Option Mem) :
    List Nat × Nat :=
  if c.r.size ≠ 0 then
    let rs := if size_sub c.w.size c.w.len < len
      then buff_resize c.w (size_add (size_add c.w.size len) 1) alloc
      else (c.w, 0)
    (strcpy_stores rs.1.len pfx ++ strcpy_stores (rs.1.len + pfx.length) msg, rs.1.size)
  else ([], c.w.size)

/-! ## Side conditions and concrete inputs -/

/-- No `size_t` computation made to append `n` bytes to `b` wraps around. -/
def fits (b : buffer) (n : Nat) : Prop := b.len + n < SIZE_MOD ∧ b.size + n + 1 < SIZE_MOD

instance (b : buffer) (n : Nat) : Decidable (fits b n) := by unfold fits; infer_instance

/-- A `realloc` that succeeds; the fresh bytes are all `0xAA`. -/
def alloc_ok : Option Mem := some (fun _ => 170)

/-- Nothing is ready, `accept`, `send` and `recv` fail, every `realloc`
succeeds. -/
def env_idle : Env :=
  { status := 1, ready_r := fun _ => false, ready_w := fun _ => false, accept_fd := -1,
    alloc_in := alloc_ok, alloc_arrival := fun _ => alloc_ok, snd := fun _ => -1,
    rcv := fun _ => none, alloc_out := fun _ _ => alloc_ok }

/-- The listening descriptor `fd` is readable and `accept` returns `a`. -/
def env_accept (fd a : Int) : Env :=
  { env_idle with ready_r := fun x => x == fd, accept_fd := a }

/-- The descriptor `cfd` is readable and `recv` answers `r` on it. -/
def env_recv (cfd : Int) (r : Option (List Nat)) : Env :=
  { env_idle with ready_r := fun x => x == cfd, rcv := fun _ => r }

/-- The server listening on descriptor 3 after it has accepted three clients
on descriptors 4, 5 and 6 (slots 0, 1 and 2). -/
def three_clients : Server :=
  run 3 [env_accept 3 4, env_accept 3 5, env_accept 3 6] (Server.init 3)

/-- A live client with an empty input buffer of 4096 bytes and no output
buffer yet. -/
def fresh_client : client :=
  { r := { size := 4096, len := 0, data := fun _ => 170 }, w := buffer.zero }

/-- A table whose slots 0, 1 and 2 are live and empty. -/
def three_fresh : Table := fun j => if j < 3 then fresh_client else client.zero

/-- A table whose slots 1 and 2 are live and empty; slot 0 is free. -/
def others_of_zero : Table := fun j => if j = 1 ∨ j = 2 then fresh_client else client.zero

/-- A table whose slot 0 alone is live. -/
def with_one_client : Table := fun j => if j = 0 then fresh_client else client.zero

/-- Every `realloc` succeeds but the one made for recipient 1. -/
def alloc_fails_at_1 : Nat → Option Mem := fun j => if j = 1 then none else alloc_ok

/-- After `three_clients`, client 1 (descriptor 5) sends two lines that arrive
in one `recv`. -/
def after_two_lines : Server := run 3 [env_recv 5 (some (str "a\nb\n"))] three_clients

/-- After `after_two_lines`, client 1 sends a third line. -/
def after_third_line : Server := run 3 [env_recv 5 (some (str "c\n"))] after_two_lines

/-- After `three_clients`, client 1 sends the line `hello` and it arrives in
two `recv`s. -/
def after_split_line : Server :=
  run 3 [env_recv 5 (some (str "he")), env_recv 5 (some (str "llo\n"))] three_clients

/-- After `three_clients`, two bytes without a line feed arrive from
client 1. -/
def after_partial_read : Server := run 3 [env_recv 5 (some (str "hi"))] three_clients

/-- After `three_clients`, `recv` fails on client 1. -/
def after_io_error : Server := run 3 [env_recv 5 none] three_clients

/-- After `three_clients`, client 2 (descriptor 6, the highest) closes its
connection. -/
def after_close : Server := run 3 [env_recv 6 (some [])] three_clients

/-- An output buffer of capacity 8 holding the 5 bytes `hello`. -/
def hello_buffer : buffer := { size := 8, len := 5, data := write_bytes NULL 0 (str "hello") }

/-- The descriptors `cfd` and `cfd + 1` are readable and writable, `send`
takes 5 bytes and `recv` brings one byte. -/
def env_chat (cfd : Int) : Env :=
  { env_idle with
      ready_r := fun x => x == cfd || x == cfd + 1,
      ready_w := fun x => x == cfd || x == cfd + 1,
      snd := fun _ => 5, rcv := fun _ => some (str "x") }

/-- The server listening on descriptor 3 after it has accepted its first
client on descriptor 4 (slot 0). -/
def first_client : Server := run 3 [env_accept 3 4] (Server.init 3)

/-- The call of `cli_io` for slot 0 of `first_client` when one `recv` brings a
short line followed by a longer one. -/
def two_line_read : client × Int :=
  cli_io (first_client.c 0) true false (-1) (some (str "a\nbcdefgh\n"))

/-- A live client whose output buffer is empty with a capacity of 16. -/
def exact_fit_client : client :=
  { r := { size := 4096, len := 0, data := NULL }, w := { size := 16, len := 0, data := NULL } }

/-! ## Memory lemmas -/

theorem read_bytes_length (m : Mem) (off n : Nat) : (read_bytes m off n).length = n := by
  simp [read_bytes]

theorem read_bytes_append (m : Mem) (off a b : Nat) :
    read_bytes m off (a + b) = read_bytes m off a ++ read_bytes m (off + a) b := by
  simp [read_bytes, List.range_add, List.map_append, List.map_map, Function.comp_def,
    Nat.add_assoc]

theorem read_bytes_congr (m m1 : Mem) (off n : Nat)
    (h : ∀ i, i < n → m (off + i) = m1 (off + i)) :
    read_bytes m off n = read_bytes m1 off n := by
  unfold read_bytes
  apply List.map_congr_left
  intro i hi
  exact h i (List.mem_range.mp hi)

theorem read_bytes_eq_list (m : Mem) (off : Nat) (l : List Nat)
    (h : ∀ i, i < l.length → m (off + i) = l.getD i 0) :
    read_bytes m off l.length = l := by
  apply List.ext_getElem (read_bytes_length m off l.length)
  intro i h1 h2
  have := h i h2
  rw [List.getD_eq_getElem l 0 h2] at this
  simpa [read_bytes] using this

theorem write_bytes_below (m : Mem) (off : Nat) (bs : List Nat) (j : Nat) (h : j < off) :
    write_bytes m off bs j = m j := by
  unfold write_bytes
  rw [if_neg]
  omega

theorem write_bytes_at (m : Mem) (off : Nat) (bs : List Nat) (i : Nat) (h : i < bs.length) :
    write_bytes m off bs (off + i) = bs.getD i 0 := by
  unfold write_bytes
  rw [if_pos (by omega)]
  congr 1
  omega

theorem cstr_of_nonzero (l : List Nat) (h : ∀ b ∈ l, b ≠ 0) : cstr l = l := by
  unfold cstr
  rw [List.takeWhile_eq_self_iff]
  intro x hx
  simpa using h x hx

theorem cstr_terminated (m rest : List Nat) (h : ∀ b ∈ m, b ≠ 0) :
    cstr (m ++ 0 :: rest) = m := by
  unfold cstr
  rw [List.takeWhile_append_of_pos (by intro a ha; simpa using h a ha)]
  simp

theorem strcpy_below (m : Mem) (off : Nat) (src : List Nat) (j : Nat) (h : j < off) :
    strcpy m off src j = m j := write_bytes_below m off _ j h

theorem strcpy_at (m : Mem) (off : Nat) (src : List Nat) (i : Nat)
    (h : i < (cstr src).length) : strcpy m off src (off + i) = (cstr src).getD i 0 := by
  unfold strcpy
  rw [write_bytes_at _ _ _ _ (by simp; omega)]
  rw [List.getD_append _ _ _ _ h]

/-! ## `sprintf` -/

theorem itoa_aux_nonzero (fuel n : Nat) (acc : List Nat) (h : ∀ b ∈ acc, b ≠ 0) :
    ∀ b ∈ itoa_aux fuel n acc, b ≠ 0 := by
  induction fuel generalizing n acc with
  | zero => simpa [itoa_aux] using h
  | succ k ih =>
    unfold itoa_aux
    split
    · intro b hb
      rcases List.mem_cons.mp hb with rfl | hb
      · omega
      · exact h b hb
    · apply ih
      intro b hb
      rcases List.mem_cons.mp hb with rfl | hb
      · omega
      · exact h b hb

theorem fmt_d_nonzero (n : Int) : ∀ b ∈ fmt_d n, b ≠ 0 := by
  unfold fmt_d
  split
  · intro b hb
    rcases List.mem_cons.mp hb with rfl | hb
    · decide
    · exact itoa_aux_nonzero _ _ [] (by simp) b hb
  · exact itoa_aux_nonzero _ _ [] (by simp)

theorem make_pfx_nonzero (sender_id : Int) : ∀ b ∈ make_pfx sender_id, b ≠ 0 := by
  have h1 : ∀ b ∈ str "server: client ", b ≠ 0 := by decide
  have h2 : ∀ b ∈ str " ", b ≠ 0 := by decide
  have h3 : ∀ b ∈ str "client ", b ≠ 0 := by decide
  have h4 : ∀ b ∈ str ": ", b ≠ 0 := by decide
  unfold make_pfx
  split
  · intro b hb
    rcases List.mem_append.mp hb with hb | hb
    · rcases List.mem_append.mp hb with hb | hb
      · exact h1 b hb
      · exact fmt_d_nonzero _ b hb
    · exact h2 b hb
  · intro b hb
    rcases List.mem_append.mp hb with hb | hb
    · rcases List.mem_append.mp hb with hb | hb
      · exact h3 b hb
      · exact fmt_d_nonzero _ b hb
    · exact h4 b hb


theorem size_add_eq (a b : Nat) (h : a + b < SIZE_MOD) : size_add a b = a + b :=
  Nat.mod_eq_of_lt h

theorem size_sub_wrap (a b : Nat) (hb : b < SIZE_MOD) (hab : a < b) :
    size_sub a b = a + SIZE_MOD - b := by
  unfold size_sub
  rw [Nat.mod_eq_of_lt hb, Nat.mod_eq_of_lt (by omega)]

theorem buff_resize_grow (w : buffer) (ns : Nat) (g : Mem) (h : w.size < ns) :
    buff_resize w ns (some g)
      = ({ size := ns, len := w.len,
           data := fun i => if i < min w.size ns then w.data i else g i }, 0) := by
  unfold buff_resize
  rw [if_pos (by omega), if_neg (by omega)]

theorem buff_resize_fail (w : buffer) (ns : Nat) (h : ns ≠ w.size) :
    buff_resize w ns none = ({ size := 0, len := 0, data := NULL }, -1) := by
  unfold buff_resize
  rw [if_pos h]

theorem buff_resize_noop (b : buffer) (a : Option Mem) :
    buff_resize b b.size a = (b, 0) := by
  unfold buff_resize
  rw [if_neg (by simp)]

theorem buff_resize_ok (b : buffer) (ns : Nat) (g : Mem) :
    (buff_resize b ns (some g)).2 = 0 ∧ (buff_resize b ns (some g)).1.size = ns := by
  unfold buff_resize
  by_cases h : ns ≠ b.size
  · rw [if_pos h]
    exact ⟨rfl, rfl⟩
  · rw [if_neg h]
    exact ⟨rfl, (not_not.mp h).symm⟩

theorem grow_keeps (w : buffer) (total : Nat) (alloc : Option Mem) (hfit : fits w total)
    (h : (if size_sub w.size w.len < total
          then buff_resize w (size_add (size_add w.size total) 1) alloc else (w, 0)).2 = 0) :
    (if size_sub w.size w.len < total
      then buff_resize w (size_add (size_add w.size total) 1) alloc else (w, 0)).1.len = w.len
    ∧ ∀ i, i < w.len →
      (if size_sub w.size w.len < total
        then buff_resize w (size_add (size_add w.size total) 1) alloc else (w, 0)).1.data i
        = w.data i := by
  obtain ⟨h1, h2⟩ := hfit
  by_cases hc : size_sub w.size w.len < total
  · rw [if_pos hc] at h ⊢
    have hle : w.len ≤ w.size := by
      by_contra hlt
      rw [size_sub_wrap _ _ (by omega) (by omega)] at hc
      omega
    have hns : size_add (size_add w.size total) 1 = w.size + total + 1 := by
      rw [size_add_eq w.size total (by omega), size_add_eq _ 1 h2]
    rw [hns] at h ⊢
    cases alloc with
    | none =>
      rw [buff_resize_fail _ _ (by omega)] at h
      exact absurd h (by decide)
    | some g =>
      rw [buff_resize_grow _ _ _ (by omega)]
      refine ⟨rfl, ?_⟩
      intro i hi
      show (if i < min w.size (w.size + total + 1) then w.data i else g i) = w.data i
      rw [if_pos (by rw [Nat.min_eq_left (by omega)]; omega)]
  · rw [if_neg hc]
    exact ⟨rfl, fun _ _ => rfl⟩

theorem bcast_one_content (c : client) (pfx msg : List Nat) (L : Nat) (alloc : Option Mem)
    (hlive : c.r.size ≠ 0) (hpfx : ∀ b ∈ pfx, b ≠ 0) (hL : L ≤ (cstr msg).length)
    (hfit : fits c.w (L + pfx.length))
    (hret : (bcast_one c pfx msg (size_add L pfx.length) alloc).2 = some 0) :
    (bcast_one c pfx msg (size_add L pfx.length) alloc).1.w.len
        = c.w.len + (pfx.length + L)
    ∧ (bcast_one c pfx msg (size_add L pfx.length) alloc).1.w.content
        = c.w.content ++ pfx ++ (cstr msg).take L := by
  have htot : size_add L pfx.length = L + pfx.length :=
    size_add_eq _ _ (by have := hfit.1; omega)
  rw [htot] at hret ⊢
  unfold bcast_one at hret ⊢
  rw [if_pos hlive] at hret ⊢
  simp only at hret ⊢
  by_cases hr : (if size_sub c.w.size c.w.len < L + pfx.length
      then buff_resize c.w (size_add (size_add c.w.size (L + pfx.length)) 1) alloc
      else (c.w, 0)).2 = 0
  · rw [if_pos hr]
    obtain ⟨hlen, hdata⟩ := grow_keeps c.w (L + pfx.length) alloc hfit hr
    generalize (if size_sub c.w.size c.w.len < L + pfx.length
        then buff_resize c.w (size_add (size_add c.w.size (L + pfx.length)) 1) alloc
        else (c.w, 0)) = rs at hlen hdata ⊢
    have hlen2 : size_add rs.1.len (L + pfx.length) = c.w.len + pfx.length + L := by
      rw [hlen, size_add_eq _ _ hfit.1]; omega
    refine ⟨by show size_add rs.1.len (L + pfx.length) = _; rw [hlen2]; omega, ?_⟩
    unfold buffer.content
    simp only
    rw [hlen2, hlen, read_bytes_append _ 0 (c.w.len + pfx.length) L,
      read_bytes_append _ 0 c.w.len pfx.length]
    congr 1
    · congr 1
      · apply read_bytes_congr
        intro i hi
        rw [strcpy_below _ _ _ _ (by omega), strcpy_below _ _ _ _ (by omega)]
        simpa using hdata i hi
      · have hp := cstr_of_nonzero pfx hpfx
        apply read_bytes_eq_list
        intro i hi
        rw [strcpy_below _ _ _ _ (by omega), Nat.zero_add,
          strcpy_at _ _ _ _ (by rw [hp]; exact hi), hp]
    · have hl : ((cstr msg).take L).length = L := by simp [hL]
      have := read_bytes_eq_list
        (strcpy (strcpy rs.1.data c.w.len pfx) (c.w.len + pfx.length) msg)
        (0 + (c.w.len + pfx.length)) ((cstr msg).take L)
      rw [hl] at this
      apply this
      intro i hi
      rw [Nat.zero_add, strcpy_at _ _ _ _ (by omega),
        List.getD_eq_getElem _ _ (by omega : i < (cstr msg).length),
        List.getD_eq_getElem _ _ (by omega : i < ((cstr msg).take L).length),
        List.getElem_take]
  · rw [if_neg hr] at hret
    exact absurd hret (by simp)

/-! ## The loop of `broadcast_msg` -/

theorem Table.set_same (clients : Table) (id : Nat) (c : client) :
    clients.set id c id = c := by
  simp [Table.set]

theorem Table.set_other (clients : Table) (id j : Nat) (c : client) (h : j ≠ id) :
    clients.set id c j = clients j := by
  simp [Table.set, h]

theorem bcast_loop_frame (pfx msg : List Nat) (len : Nat) (alloc : Nat → Option Mem) :
    ∀ (k : Nat) (clients : Table) (id j : Nat), (j < id ∨ id + k ≤ j) →
      (bcast_loop pfx msg len alloc clients id k).1 j = clients j := by
  intro k
  induction k with
  | zero => intro clients id j _; rfl
  | succ k ih =>
    intro clients id j hj
    unfold bcast_loop
    simp only
    split
    · rw [ih _ _ _ (by omega), Table.set_other _ _ _ _ (by omega)]
    · exact Table.set_other _ _ _ _ (by omega)

theorem bcast_loop_at (pfx msg : List Nat) (len : Nat) (alloc : Nat → Option Mem) :
    ∀ (k : Nat) (clients : Table) (id t : Nat), id ≤ t → t < id + k →
      (∀ j, id ≤ j → j < t → (bcast_one (clients j) pfx msg len (alloc j)).2 = some 0) →
      (bcast_loop pfx msg len alloc clients id k).1 t
        = (bcast_one (clients t) pfx msg len (alloc t)).1 := by
  intro k
  induction k with
  | zero => intro clients id t h1 h2; omega
  | succ k ih =>
    intro clients id t h1 h2 hok
    unfold bcast_loop
    simp only
    by_cases ht : t = id
    · subst ht
      split
      · rw [bcast_loop_frame _ _ _ _ _ _ _ _ (Or.inl (Nat.lt_succ_self t)), Table.set_same]
      · exact Table.set_same _ _ _
    · rw [if_pos (hok id (Nat.le_refl id) (by omega))]
      rw [ih _ _ _ (by omega) (by omega), Table.set_other _ _ _ _ ht]
      intro j hj1 hj2
      rw [Table.set_other _ _ _ _ (by omega)]
      exact hok j (by omega) hj2

theorem bcast_loop_ret_ok (pfx msg : List Nat) (len : Nat) (alloc : Nat → Option Mem) :
    ∀ (k : Nat) (clients : Table) (id : Nat),
      (∀ j, id ≤ j → j < id + k →
        (bcast_one (clients j) pfx msg len (alloc j)).2 = some 0) →
      (bcast_loop pfx msg len alloc clients id k).2 = some 0 := by
  intro k
  induction k with
  | zero => intro clients id _; rfl
  | succ k ih =>
    intro clients id hok
    unfold bcast_loop
    simp only
    rw [if_pos (hok id (Nat.le_refl id) (by omega))]
    apply ih
    intro j hj1 hj2
    rw [Table.set_other _ _ _ _ (by omega)]
    exact hok j (by omega) (by omega)

/-- When the loop of `broadcast_msg` does not end with `ret = 0`, the body has
not ended with `ret = 0` for some slot `t`: the slots before `t` have gone
through the body, those after `t` are untouched, and the loop ends as the body
of `t` did. -/
theorem bcast_loop_fail (pfx msg : List Nat) (len : Nat) (alloc : Nat → Option Mem) :
    ∀ (k : Nat) (clients : Table) (id : Nat),
      (bcast_loop pfx msg len alloc clients id k).2 ≠ some 0 →
      ∃ t, id ≤ t ∧ t < id + k
        ∧ (bcast_one (clients t) pfx msg len (alloc t)).2 ≠ some 0
        ∧ (bcast_loop pfx msg len alloc clients id k).2
            = (bcast_one (clients t) pfx msg len (alloc t)).2
        ∧ (∀ j, id ≤ j → j < t →
            (bcast_one (clients j) pfx msg len (alloc j)).2 = some 0)
        ∧ (∀ j, t < j → (bcast_loop pfx msg len alloc clients id k).1 j = clients j) := by
  intro k
  induction k with
  | zero => intro clients id h; exact absurd rfl h
  | succ k ih =>
    intro clients id h
    unfold bcast_loop at h ⊢
    simp only at h ⊢
    by_cases h0 : (bcast_one (clients id) pfx msg len (alloc id)).2 = some 0
    · rw [if_pos h0] at h ⊢
      obtain ⟨t, ht1, ht2, ht3, ht3b, ht4, ht5⟩ := ih _ _ h
      refine ⟨t, by omega, by omega, ?_, ?_, ?_, ?_⟩
      · rwa [Table.set_other _ _ _ _ (by omega)] at ht3
      · rwa [Table.set_other _ _ _ _ (by omega)] at ht3b
      · intro j hj1 hj2
        by_cases hj : j = id
        · subst hj; exact h0
        · have := ht4 j (by omega) hj2
          rwa [Table.set_other _ _ _ _ hj] at this
      · intro j hj
        rw [ht5 j hj, Table.set_other _ _ _ _ (by omega)]
    · rw [if_neg h0]
      refine ⟨id, Nat.le_refl id, by omega, h0, rfl, ?_, ?_⟩
      · intro j hj1 hj2; omega
      · intro j hj
        exact Table.set_other _ _ _ _ (by omega)

/-- The body of the loop of `broadcast_msg` either ends with `ret = 0`, or is
stopped at the first `strcpy`: that happens for a live slot whose growth has
failed, and the slot is then as `buff_resize` left it, with an empty output
buffer. -/
theorem bcast_one_ret (c : client) (pfx msg : List Nat) (len : Nat) (alloc : Option Mem)
    (h : (bcast_one c pfx msg len alloc).2 ≠ some 0) :
    c.r.size ≠ 0 ∧ alloc = none ∧ size_sub c.w.size c.w.len < len
    ∧ (bcast_one c pfx msg len alloc).2 = none
    ∧ (bcast_one c pfx msg len alloc).1 = { c with w := buffer.zero } := by
  unfold bcast_one at h ⊢
  by_cases hl : c.r.size ≠ 0
  · rw [if_pos hl] at h ⊢
    simp only at h ⊢
    by_cases hc : size_sub c.w.size c.w.len < len
    · rw [if_pos hc] at h ⊢
      cases alloc with
      | none =>
        have hne : size_add (size_add c.w.size len) 1 ≠ c.w.size ∨
            size_add (size_add c.w.size len) 1 = c.w.size := by omega
        rcases hne with hne | heq
        · rw [buff_resize_fail _ _ hne]
          exact ⟨hl, rfl, hc, rfl, rfl⟩
        · exfalso
          apply h
          rw [heq, buff_resize_noop]
          rfl
      | some g =>
        exfalso
        apply h
        have h0 := (buff_resize_ok c.w (size_add (size_add c.w.size len) 1) g).1
        rw [if_pos h0, h0]
    · rw [if_neg hc] at h
      exact absurd rfl h
  · rw [if_neg hl] at h
    exact absurd rfl h

theorem bcast_one_ok (c : client) (pfx msg : List Nat) (len : Nat) (g : Mem) :
    (bcast_one c pfx msg len (some g)).2 = some 0 := by
  by_contra h
  have := (bcast_one_ret c pfx msg len (some g) h).2.1
  exact absurd this (by simp)

theorem bcast_one_r (c : client) (pfx msg : List Nat) (len : Nat) (alloc : Option Mem) :
    (bcast_one c pfx msg len alloc).1.r = c.r := by
  unfold bcast_one
  by_cases hl : c.r.size ≠ 0
  · rw [if_pos hl]
    simp only
    split <;> split <;> rfl
  · rw [if_neg hl]

theorem bcast_one_dead (c : client) (pfx msg : List Nat) (len : Nat) (alloc : Option Mem)
    (h : c.r.size = 0) : (bcast_one c pfx msg len alloc).1 = c := by
  unfold bcast_one
  rw [if_neg (by simpa using h)]

theorem alloc_some (a : Option Mem) (h : a ≠ none) : ∃ g, a = some g := by
  cases a with
  | none => exact absurd rfl h
  | some g => exact ⟨g, rfl⟩

theorem bcast_one_ok_of_ne (c : client) (pfx msg : List Nat) (len : Nat) (a : Option Mem)
    (h : a ≠ none) : (bcast_one c pfx msg len a).2 = some 0 := by
  obtain ⟨g, rfl⟩ := alloc_some a h
  exact bcast_one_ok c pfx msg len g

/-- What `broadcast_msg` leaves in the output buffer of a live recipient `id`
below `n` when every `realloc` up to that recipient succeeds. -/
theorem broadcast_msg_content (clients : Table) (n sender_id : Int) (msg : List Nat) (L : Nat)
    (alloc : Nat → Option Mem) (id : Nat)
    (hid : (id : Int) < n) (hlive : (clients id).r.size ≠ 0)
    (hgrow : ∀ j, j ≤ id → alloc j ≠ none)
    (hL : L ≤ (cstr msg).length)
    (hfit : fits (clients id).w (L + (make_pfx sender_id).length)) :
    ((broadcast_msg clients n sender_id msg L alloc).1 id).w.len
        = (clients id).w.len + ((make_pfx sender_id).length + L)
    ∧ ((broadcast_msg clients n sender_id msg L alloc).1 id).w.content
        = (clients id).w.content ++ make_pfx sender_id ++ (cstr msg).take L := by
  unfold broadcast_msg
  simp only
  rw [bcast_loop_at _ _ _ _ n.toNat clients 0 id (Nat.zero_le _) (by omega)
    (fun j _ hj => bcast_one_ok_of_ne _ _ _ _ _ (hgrow j (by omega)))]
  exact bcast_one_content (clients id) (make_pfx sender_id) msg L (alloc id) hlive
    (make_pfx_nonzero sender_id) hL hfit
    (bcast_one_ok_of_ne _ _ _ _ _ (hgrow id (Nat.le_refl id)))

theorem make_pfx_client (N : Int) (h : 0 ≤ N) :
    make_pfx N = str "client " ++ fmt_d N ++ str ": " := by
  unfold make_pfx
  rw [if_neg (by omega)]

theorem make_pfx_server (i : Nat) (h : 1 ≤ i) :
    make_pfx (-(i : Int)) = str "server: client " ++ fmt_d i ++ str " " := by
  unfold make_pfx
  rw [if_pos (by omega), Int.neg_neg]

/-- For the slot numbers of the table `%d` prints the usual decimal
numeral. -/
theorem fmt_d_decimal : ∀ n : Fin 64, fmt_d (n.val : Int) = str (Nat.repr n.val) := by
  decide

/-! ## The bounds given to the loops are enough -/

theorem strstr_lf_fuel (m : Mem) :
    ∀ (fuel off extra k : Nat), k < fuel → m (off + k) = 0 →
      strstr_lf m off (fuel + extra) = strstr_lf m off fuel := by
  intro fuel
  induction fuel with
  | zero => intro off extra k hk; omega
  | succ f ih =>
    intro off extra k hk h0
    rw [Nat.add_right_comm]
    unfold strstr_lf
    by_cases h1 : m off = 0
    · rw [if_pos h1, if_pos h1]
    · rw [if_neg h1, if_neg h1]
      by_cases h2 : m off = LF
      · rw [if_pos h2, if_pos h2]
      · rw [if_neg h2, if_neg h2]
        cases k with
        | zero => exact absurd h0 h1
        | succ k =>
          exact ih (off + 1) extra k (by omega) (by rw [← h0]; congr 1; omega)

theorem buff_read_terminated (buff : buffer) (pending : List Nat)
    (h : 0 < (buff_read buff (some pending)).2) :
    (buff_read buff (some pending)).1.data (buff_read buff (some pending)).1.len = 0 := by
  unfold buff_read at h ⊢
  simp only at h ⊢
  split
  · simp [store]
  · rename_i hn
    rw [if_neg hn] at h
    exact absurd h (Int.lt_irrefl 0)

theorem buff_read_len (buff : buffer) (pending : List Nat)
    (h : 0 < (buff_read buff (some pending)).2) :
    (buff_read buff (some pending)).2 = ((pending.take (size_sub buff.size buff.len)).length : Int)
    ∧ (buff_read buff (some pending)).1.len
        = size_add buff.len (pending.take (size_sub buff.size buff.len)).length := by
  unfold buff_read at h ⊢
  simp only at h ⊢
  split
  · exact ⟨rfl, rfl⟩
  · rename_i hn
    rw [if_neg hn] at h
    exact absurd h (Int.lt_irrefl 0)

/-- The bound `ret + 1` given to `strstr_lf` in `cli_io` reaches the NUL byte
that `buff_read` has stored at `len`: a larger bound finds the same. -/
theorem cli_io_scan_fuel (buff : buffer) (pending : List Nat) (extra : Nat)
    (h : 0 < (buff_read buff (some pending)).2)
    (hfit : buff.len + pending.length < SIZE_MOD) :
    strstr_lf (buff_read buff (some pending)).1.data
        ((buff_read buff (some pending)).1.len - (buff_read buff (some pending)).2.toNat)
        ((buff_read buff (some pending)).2.toNat + 1 + extra)
      = strstr_lf (buff_read buff (some pending)).1.data
        ((buff_read buff (some pending)).1.len - (buff_read buff (some pending)).2.toNat)
        ((buff_read buff (some pending)).2.toNat + 1) := by
  obtain ⟨h1, h2⟩ := buff_read_len buff pending h
  have h0 := buff_read_terminated buff pending h
  have hle : (pending.take (size_sub buff.size buff.len)).length ≤ pending.length := by
    simp
  rw [size_add_eq _ _ (by omega)] at h2
  apply strstr_lf_fuel _ _ _ _ (buff_read buff (some pending)).2.toNat (by omega)
  rw [← h0]
  congr 1
  rw [h1, h2]
  omega

theorem hfd_loop_bound (clients : Table) :
    ∀ (k : Nat) (nh : Int), hfd_loop clients k nh = nh ∨ hfd_loop clients k nh < k := by
  intro k
  induction k with
  | zero => intro nh; exact Or.inl rfl
  | succ k ih =>
    intro nh
    unfold hfd_loop
    rcases ih (if (clients k).r.size ≠ 0 then (k : Int) else nh) with h | h
    · rw [h]
      split
      · right; omega
      · left; rfl
    · right; omega

theorem listener_hfd_lt (clients : Table) (fd : Int) (id : Nat) :
    listener_hfd clients fd (fd + 1 + id - 1) < fd + 1 + id := by
  unfold listener_hfd
  rcases hfd_loop_bound clients (fd + 1 + (id : Int) - 1 - fd).toNat (-1) with h | h
  · rw [h]; omega
  · omega

theorem service_hfd_le (fd : Int) (rfds wfds : List Int) (env : Env) (st : Server) (s : Int)
    (id : Nat) : (service fd rfds wfds env st s id).1.hfd ≤ st.hfd := by
  have hh : (if fd + 1 + (id : Int) = st.hfd
      then listener_hfd (st.c.set id (cli_io (st.c id) (FD_ISSET (fd + 1 + (id : Int)) rfds)
        (FD_ISSET (fd + 1 + (id : Int)) wfds) (env.snd id) (env.rcv id)).1) fd (st.hfd - 1)
      else st.hfd) ≤ st.hfd := by
    split
    · rename_i h
      rw [← h]
      exact Int.le_of_lt (listener_hfd_lt _ fd id)
    · exact Int.le_refl _
  unfold service
  simp only
  split
  · split
    · split
      · exact hh
      · exact hh
    · split
      · split
        · split <;> exact Int.le_refl _
        · exact Int.le_refl _
      · exact Int.le_refl _
  · exact Int.le_refl _

/-- The bound `hfd - fd` given to `service_loop` in `loop_body` is never
exhausted before the test `id < hfd - fd` fails: a larger bound gives the same
state. -/
theorem service_loop_fuel (fd : Int) (rfds wfds : List Int) (env : Env) :
    ∀ (k : Nat) (st : Server × Int) (id extra : Nat), st.1.hfd - fd - id ≤ k →
      service_loop fd rfds wfds env st id (k + extra) = service_loop fd rfds wfds env st id k := by
  intro k
  induction k with
  | zero =>
    intro st id extra h
    cases extra with
    | zero => rfl
    | succ e =>
      rw [Nat.zero_add]
      unfold service_loop
      rw [if_neg (by intro hc; have := hc.2; omega)]
  | succ k ih =>
    intro st id extra h
    rw [Nat.add_right_comm]
    unfold service_loop
    split
    · apply ih
      have := service_hfd_le fd rfds wfds env st.1 st.2 id
      push_cast
      omega
    · rfl

/-! ## `ft_memmove` and `buff_write` -/

theorem store_same (m : Mem) (i v : Nat) : store m i v i = v := by
  simp [store]

theorem store_other (m : Mem) (i v j : Nat) (h : j ≠ i) : store m i v j = m j := by
  simp [store, h]

theorem copy_fwd_spec :
    ∀ (n : Nat) (m : Mem) (dst src : Nat), (dst ≤ src ∨ src + n ≤ dst) → ∀ j,
      copy_fwd m dst src n j = if dst ≤ j ∧ j < dst + n then m (src + (j - dst)) else m j := by
  intro n
  induction n with
  | zero =>
    intro m dst src _ j
    unfold copy_fwd
    rw [if_neg (by omega)]
  | succ n ih =>
    intro m dst src h j
    unfold copy_fwd
    rw [ih _ _ _ (by omega)]
    by_cases h1 : dst + 1 ≤ j ∧ j < dst + 1 + n
    · rw [if_pos h1, if_pos (by omega), store_other _ _ _ _ (by omega)]
      congr 1
      omega
    · rw [if_neg h1]
      by_cases h2 : j = dst
      · subst h2
        rw [store_same, if_pos (by omega), Nat.sub_self, Nat.add_zero]
      · rw [store_other _ _ _ _ h2, if_neg (by omega)]

theorem copy_bwd_spec :
    ∀ (n : Nat) (m : Mem) (dst src : Nat), src ≤ dst → ∀ j,
      copy_bwd m dst src n j = if dst ≤ j ∧ j < dst + n then m (src + (j - dst)) else m j := by
  intro n
  induction n with
  | zero =>
    intro m dst src _ j
    unfold copy_bwd
    rw [if_neg (by omega)]
  | succ n ih =>
    intro m dst src h j
    unfold copy_bwd
    rw [ih _ _ _ h]
    by_cases h1 : dst ≤ j ∧ j < dst + n
    · rw [if_pos h1, if_pos (by omega), store_other _ _ _ _ (by omega)]
    · rw [if_neg h1]
      by_cases h2 : j = dst + n
      · subst h2
        rw [store_same, if_pos (by omega)]
        congr 1
        omega
      · rw [store_other _ _ _ _ h2, if_neg (by omega)]

/-- After `ft_memmove`, the bytes of `[dst, dst + n)` are those that were at the
same distance from `src`, and the other bytes are untouched. -/
theorem ft_memmove_spec (m : Mem) (dst src n j : Nat) :
    ft_memmove m dst src n j = if dst ≤ j ∧ j < dst + n then m (src + (j - dst)) else m j := by
  unfold ft_memmove
  by_cases h : dst ≠ src
  · rw [if_pos h]
    by_cases h1 : dst < src ∨ dst - src > n
    · rw [if_pos h1]
      exact copy_fwd_spec n m dst src (by omega) j
    · rw [if_neg h1]
      exact copy_bwd_spec n m dst src (by omega) j
  · rw [if_neg h]
    have : dst = src := not_not.mp h
    subst this
    split
    · congr 1; omega
    · rfl

theorem size_sub_eq (a b : Nat) (ha : a < SIZE_MOD) (hb : b ≤ a) : size_sub a b = a - b := by
  unfold size_sub
  rw [Nat.mod_eq_of_lt (by omega : b < SIZE_MOD)]
  have : a + SIZE_MOD - b = (a - b) + SIZE_MOD := by omega
  rw [this, Nat.add_mod_right, Nat.mod_eq_of_lt (by omega)]

theorem read_bytes_drop (m : Mem) (n len : Nat) (h : n ≤ len) :
    (read_bytes m 0 len).drop n = read_bytes m n (len - n) := by
  have : len = n + (len - n) := by omega
  rw [this, read_bytes_append, Nat.zero_add]
  have hl := read_bytes_length m 0 n
  rw [List.drop_append_of_le_length (by omega)]
  rw [List.drop_of_length_le (by omega), List.nil_append]
  congr 1
  omega

/-! ## Frame of `broadcast_msg` -/

theorem bcast_loop_r (pfx msg : List Nat) (len : Nat) (alloc : Nat → Option Mem) :
    ∀ (k : Nat) (clients : Table) (id j : Nat),
      ((bcast_loop pfx msg len alloc clients id k).1 j).r = (clients j).r
      ∧ ((clients j).r.size = 0 → (bcast_loop pfx msg len alloc clients id k).1 j = clients j) := by
  intro k
  induction k with
  | zero => intro clients id j; exact ⟨rfl, fun _ => rfl⟩
  | succ k ih =>
    intro clients id j
    have hset : (clients.set id (bcast_one (clients id) pfx msg len (alloc id)).1 j).r
          = (clients j).r
        ∧ ((clients j).r.size = 0 →
          clients.set id (bcast_one (clients id) pfx msg len (alloc id)).1 j = clients j) := by
      by_cases hj : j = id
      · subst hj
        rw [Table.set_same]
        exact ⟨bcast_one_r _ _ _ _ _, fun h => bcast_one_dead _ _ _ _ _ h⟩
      · rw [Table.set_other _ _ _ _ hj]
        exact ⟨rfl, fun _ => rfl⟩
    unfold bcast_loop
    simp only
    split
    · obtain ⟨h1, h2⟩ := ih (clients.set id (bcast_one (clients id) pfx msg len (alloc id)).1)
        (id + 1) j
      refine ⟨h1.trans hset.1, ?_⟩
      intro hd
      rw [h2 (by rw [hset.1]; exact hd)]
      exact hset.2 hd
    · exact hset

/-! ## The invariant `len ≤ size` -/

theorem buff_resize_inv (b : buffer) (n : Nat) (a : Option Mem) (h : b.len ≤ b.size) :
    (buff_resize b n a).1.len ≤ (buff_resize b n a).1.size := by
  unfold buff_resize
  by_cases hn : n ≠ b.size
  · rw [if_pos hn]
    cases a with
    | none => exact Nat.le_refl 0
    | some g =>
      show (if n < b.size then n else b.len) ≤ n
      split <;> omega
  · rw [if_neg hn]
    exact h

theorem buff_clr_inv (b : buffer) : (buff_clr b).len ≤ (buff_clr b).size := Nat.le_refl 0

theorem buff_read_inv (b : buffer) (rcv : Option (List Nat)) (h : b.len ≤ b.size)
    (hs : b.size < SIZE_MOD) : (buff_read b rcv).1.len ≤ (buff_read b rcv).1.size := by
  unfold buff_read
  cases rcv with
  | none => exact h
  | some pending =>
    simp only
    split
    · simp only
      have hsub := size_sub_eq b.size b.len hs h
      have hl : (pending.take (size_sub b.size b.len)).length ≤ b.size - b.len := by
        rw [hsub]; simp
      rw [size_add_eq _ _ (by omega)]
      omega
    · exact h

theorem buff_write_inv (b : buffer) (snd : Int) (h : b.len ≤ b.size) (hs : b.len < SIZE_MOD)
    (hsnd : snd ≤ b.len) : (buff_write b snd).1.len ≤ (buff_write b snd).1.size := by
  unfold buff_write
  split
  · simp only
    rw [size_sub_eq _ _ hs (by omega)]
    omega
  · exact h

/-- The body of the loop of `broadcast_msg` keeps `len ≤ size` in the output
buffer, whether it completes or is stopped after a failed growth. -/
theorem bcast_one_inv (c : client) (pfx msg : List Nat) (len : Nat) (alloc : Option Mem)
    (h : c.w.len ≤ c.w.size) (hfit : fits c.w len) :
    (bcast_one c pfx msg len alloc).1.w.len ≤ (bcast_one c pfx msg len alloc).1.w.size := by
  by_cases hret : (bcast_one c pfx msg len alloc).2 = some 0
  · unfold bcast_one at hret ⊢
    by_cases hl : c.r.size ≠ 0
    · rw [if_pos hl] at hret ⊢
      simp only at hret ⊢
      obtain ⟨h1, h2⟩ := hfit
      by_cases hc : size_sub c.w.size c.w.len < len
      · rw [if_pos hc] at hret ⊢
        have hns : size_add (size_add c.w.size len) 1 = c.w.size + len + 1 := by
          rw [size_add_eq c.w.size len (by omega), size_add_eq _ 1 h2]
        rw [hns] at hret ⊢
        cases alloc with
        | none =>
          rw [buff_resize_fail _ _ (by omega)] at hret
          simp at hret
        | some g =>
          rw [buff_resize_grow _ _ _ (by omega)]
          simp only [if_true]
          rw [size_add_eq _ _ h1]
          omega
      · rw [if_neg hc]
        simp only [if_true]
        rw [size_sub_eq _ _ (by omega) h] at hc
        rw [size_add_eq _ _ h1]
        omega
    · rw [if_neg hl]
      exact h
  · rw [(bcast_one_ret _ _ _ _ _ hret).2.2.2.2]
    exact Nat.le_refl 0

/-! ## `listener_hfd` -/

theorem hfd_loop_none (clients : Table) :
    ∀ (k : Nat) (nh : Int), (∀ j, j < k → (clients j).r.size = 0) →
      hfd_loop clients k nh = nh := by
  intro k
  induction k with
  | zero => intro nh _; rfl
  | succ k ih =>
    intro nh h
    unfold hfd_loop
    rw [if_neg (by simpa using h k (Nat.lt_succ_self k))]
    exact ih nh (fun j hj => h j (by omega))

/-- The loop of `listener_hfd` ends on the lowest live slot below the bound. -/
theorem hfd_loop_lowest (clients : Table) :
    ∀ (k : Nat) (nh : Int) (m : Nat), m < k → (clients m).r.size ≠ 0 →
      (∀ j, j < m → (clients j).r.size = 0) → hfd_loop clients k nh = m := by
  intro k
  induction k with
  | zero => intro nh m hm; omega
  | succ k ih =>
    intro nh m hm hl hlow
    unfold hfd_loop
    by_cases hmk : m = k
    · subst hmk
      rw [if_pos hl]
      exact hfd_loop_none clients m _ hlow
    · exact ih _ m (by omega) hl hlow

/-! ## Stores of `strcpy` -/

/-- The model of `strcpy` changes no offset outside `strcpy_stores`. -/
theorem strcpy_frame (m : Mem) (off : Nat) (src : List Nat) (j : Nat)
    (h : j ∉ strcpy_stores off src) : strcpy m off src j = m j := by
  unfold strcpy write_bytes
  rw [if_neg]
  intro hj
  apply h
  unfold strcpy_stores
  rw [List.mem_range'_1]
  simpa using hj

/-! ## Order of the calls of one pass -/

theorem io_call_pairwise_cli (c : client) (id : Nat) (readable writable : Bool) (snd : Int) :
    (cli_io_calls c id readable writable snd).Pairwise serviced_before
    ∧ ∀ a ∈ cli_io_calls c id readable writable snd, a.slot = id := by
  unfold cli_io_calls
  simp only
  have hr : serviced_before (io_call.send id) (io_call.recv id) := Or.inr ⟨id, rfl, rfl⟩
  split <;> split <;> simp [hr, io_call.slot]

theorem service_calls_slot (fd : Int) (rfds wfds : List Int) (env : Env) (st : Server)
    (id : Nat) :
    (service_calls fd rfds wfds env st id).Pairwise serviced_before
    ∧ ∀ a ∈ service_calls fd rfds wfds env st id, a.slot = id := by
  unfold service_calls
  split
  · exact io_call_pairwise_cli _ _ _ _ _
  · simp

theorem service_loop_calls_sorted (fd : Int) (rfds wfds : List Int) (env : Env) :
    ∀ (k : Nat) (st : Server × Int) (id : Nat),
      (service_loop_calls fd rfds wfds env st id k).Pairwise serviced_before
      ∧ ∀ a ∈ service_loop_calls fd rfds wfds env st id k, id ≤ a.slot := by
  intro k
  induction k with
  | zero => intro st id; simp [service_loop_calls]
  | succ k ih =>
    intro st id
    unfold service_loop_calls
    split
    · obtain ⟨h1, h2⟩ := service_calls_slot fd rfds wfds env st.1 id
      obtain ⟨h3, h4⟩ := ih (service fd rfds wfds env st.1 st.2 id) (id + 1)
      constructor
      · rw [List.pairwise_append]
        refine ⟨h1, h3, ?_⟩
        intro a ha b hb
        left
        have := h2 a ha
        have := h4 b hb
        omega
      · intro a ha
        rcases List.mem_append.mp ha with ha | ha
        · exact Nat.le_of_eq (h2 a ha).symm
        · have := h4 a ha
          omega
    · simp

/-- The bound `hfd - fd` given to `service_loop_calls` in `loop_body_calls` is
enough as well: a larger bound gives the same calls. -/
theorem service_loop_calls_fuel (fd : Int) (rfds wfds : List Int) (env : Env) :
    ∀ (k : Nat) (st : Server × Int) (id extra : Nat), st.1.hfd - fd - id ≤ k →
      service_loop_calls fd rfds wfds env st id (k + extra)
        = service_loop_calls fd rfds wfds env st id k := by
  intro k
  induction k with
  | zero =>
    intro st id extra h
    cases extra with
    | zero => rfl
    | succ e =>
      rw [Nat.zero_add]
      unfold service_loop_calls
      rw [if_neg (by intro hc; have := hc.2; omega)]
  | succ k ih =>
    intro st id extra h
    rw [Nat.add_right_comm]
    unfold service_loop_calls
    split
    · congr 1
      apply ih
      have := service_hfd_le fd rfds wfds env st.1 st.2 id
      push_cast
      omega
    · rfl

/-! ## Outcomes of `broadcast_msg` and the removal of a line -/

/-- The loop of `broadcast_msg` leaves a slot as it was or as the body of the
loop left it, whether the loop completes or not. -/
theorem bcast_loop_slot (pfx msg : List Nat) (len : Nat) (alloc : Nat → Option Mem) :
    ∀ (k : Nat) (clients : Table) (id j : Nat),
      (bcast_loop pfx msg len alloc clients id k).1 j = clients j
      ∨ (bcast_loop pfx msg len alloc clients id k).1 j
          = (bcast_one (clients j) pfx msg len (alloc j)).1 := by
  intro k
  induction k with
  | zero => intro clients id j; exact Or.inl rfl
  | succ k ih =>
    intro clients id j
    unfold bcast_loop
    simp only
    by_cases hj : j = id
    · subst hj
      right
      split
      · rw [bcast_loop_frame _ _ _ _ _ _ _ _ (Or.inl (Nat.lt_succ_self j)), Table.set_same]
      · exact Table.set_same _ _ _
    · split
      · have := ih (clients.set id (bcast_one (clients id) pfx msg len (alloc id)).1) (id + 1) j
        rwa [Table.set_other _ _ _ _ hj] at this
      · left
        exact Table.set_other _ _ _ _ hj

/-- `broadcast_msg` never returns a non-zero value: it returns 0 or is stopped
by a store through the NULL pointer. -/
theorem broadcast_msg_returns_zero (clients : Table) (n sender_id : Int) (msg : List Nat)
    (len : Nat) (alloc : Nat → Option Mem) :
    (broadcast_msg clients n sender_id msg len alloc).2 = some 0
    ∨ (broadcast_msg clients n sender_id msg len alloc).2 = none := by
  unfold broadcast_msg
  simp only
  by_cases h : (bcast_loop (make_pfx sender_id) msg
      (size_add len (make_pfx sender_id).length) alloc clients 0 n.toNat).2 = some 0
  · exact Or.inl h
  · obtain ⟨t, _, _, ht3, ht4, _, _⟩ := bcast_loop_fail _ _ _ _ _ _ _ h
    right
    rw [ht4]
    exact (bcast_one_ret _ _ _ _ _ ht3).2.2.2.1

theorem strstr_lf_bound (m : Mem) :
    ∀ (fuel off e : Nat), strstr_lf m off fuel = some e →
      off ≤ e ∧ e < off + fuel ∧ m e = LF := by
  intro fuel
  induction fuel with
  | zero => intro off e h; simp [strstr_lf] at h
  | succ f ih =>
    intro off e h
    unfold strstr_lf at h
    by_cases h1 : m off = 0
    · rw [if_pos h1] at h
      exact absurd h (by simp)
    · rw [if_neg h1] at h
      by_cases h2 : m off = LF
      · rw [if_pos h2] at h
        have : off = e := Option.some.inj h
        subst this
        exact ⟨Nat.le_refl _, by omega, h2⟩
      · rw [if_neg h2] at h
        obtain ⟨h3, h4, h5⟩ := ih _ _ h
        exact ⟨by omega, by omega, h5⟩

theorem remove_front_inv (r : buffer) (s : Nat) (h : r.len ≤ r.size) (hs : r.size < SIZE_MOD)
    (hle : s ≤ r.len) : (remove_front r s).len ≤ (remove_front r s).size := by
  unfold remove_front
  simp only
  rw [size_sub_eq _ _ (by omega) hle]
  omega

/-- A count above 1 that `cli_io` returns is at most the `len` of the input
buffer it leaves, and that buffer still has `len ≤ size`. -/
theorem cli_io_ret_le (c : client) (readable writable : Bool) (snd : Int)
    (rcv : Option (List Nat)) (h : c.r.len ≤ c.r.size) (hs : c.r.size < SIZE_MOD)
    (h1 : 1 < (cli_io c readable writable snd rcv).2) :
    (cli_io c readable writable snd rcv).1.r.len ≤ (cli_io c readable writable snd rcv).1.r.size
    ∧ (cli_io c readable writable snd rcv).1.r.size < SIZE_MOD
    ∧ (cli_io c readable writable snd rcv).2.toNat
        ≤ (cli_io c readable writable snd rcv).1.r.len := by
  have hwr : (if writable = true then buff_write c.w snd else (c.w, 1)).2 ≤ 1 := by
    split
    · unfold buff_write
      split
      · exact Int.le_refl 1
      · simp only; omega
    · exact Int.le_refl 1
  unfold cli_io at h1 ⊢
  simp only at h1 ⊢
  generalize (if writable = true then buff_write c.w snd else (c.w, 1)) = wr at hwr h1 ⊢
  by_cases hcond : 0 < wr.2 ∧ readable = true
  · rw [if_pos hcond] at h1 ⊢
    by_cases hpos : 0 < (buff_read c.r rcv).2
    · rw [if_pos hpos] at h1 ⊢
      cases rcv with
      | none => exact absurd hpos (by simp [buff_read])
      | some pending =>
        have hinv := buff_read_inv c.r (some pending) h hs
        obtain ⟨hl1, hl2⟩ := buff_read_len c.r pending hpos
        have h0 := buff_read_terminated c.r pending hpos
        have hsz : (buff_read c.r (some pending)).1.size = c.r.size := by
          unfold buff_read
          simp only
          split <;> rfl
        have hsub := size_sub_eq c.r.size c.r.len hs h
        have hgl : (pending.take (size_sub c.r.size c.r.len)).length ≤ c.r.size - c.r.len := by
          rw [hsub]; simp
        rw [size_add_eq _ _ (by omega)] at hl2
        split
        · rename_i e he
          obtain ⟨hb1, hb2, hb3⟩ := strstr_lf_bound _ _ _ _ he
          refine ⟨hinv, by show (buff_read c.r (some pending)).1.size < _; rw [hsz]; exact hs, ?_⟩
          show ((e : Int) + 1).toNat ≤ (buff_read c.r (some pending)).1.len
          have hne : e ≠ (buff_read c.r (some pending)).1.len := by
            intro heq
            rw [heq, h0] at hb3
            exact absurd hb3 (by decide)
          omega
        · refine ⟨hinv, by show (buff_read c.r (some pending)).1.size < _; rw [hsz]; exact hs, ?_⟩
          show (buff_read c.r (some pending)).2.toNat ≤ (buff_read c.r (some pending)).1.len
          omega
    · rw [if_neg hpos] at h1
      exfalso
      simp only at h1
      omega
  · rw [if_neg hcond] at h1
    exfalso
    simp only at h1
    omega

/-! ## The claims -/

/-- C1, on a failing input: client 1 sends the lines `a` and `b`, which arrive
in one `recv`, then the line `c`.  Client 0 is sent `client 1: a`, and only
after the next `recv` the lines `b` and `c` together under a single prefix,
not each line with its own.  A line `hello` that arrives in two `recv`s is
relayed as two prefixed pieces. -/
theorem listener_loop_merges_lines :
    (after_two_lines.c 0).w.content = (three_clients.c 0).w.content ++ str "client 1: a\n"
    ∧ (after_two_lines.c 1).r.content = str "b\n"
    ∧ (after_third_line.c 0).w.content
        = (three_clients.c 0).w.content ++ str "client 1: a\nclient 1: b\nc\n"
    ∧ (after_third_line.c 0).w.content
        ≠ (three_clients.c 0).w.content ++ str "client 1: a\nclient 1: b\nclient 1: c\n"
    ∧ (after_split_line.c 0).w.content
        = (three_clients.c 0).w.content ++ str "client 1: heclient 1: llo\n" := by
  decide

/-- C2, on a failing input: client 1 is live with an empty input buffer and a
`recv` brings the two bytes `hi`, with no line feed.  `cli_io` returns the
byte count 2, which the loop takes for a line length: it broadcasts
`client 1: hi` and removes both bytes from the input buffer. -/
theorem listener_loop_broadcasts_partial_line :
    live (three_clients.c 1)
    ∧ (cli_io (three_clients.c 1) true false (-1) (some (str "hi"))).2 = 2
    ∧ (cli_io (three_clients.c 1) true false (-1) (some (str "hi"))).1.r.content = str "hi"
    ∧ LF ∉ (cli_io (three_clients.c 1) true false (-1) (some (str "hi"))).1.r.content
    ∧ (after_partial_read.c 1).r.len = 0
    ∧ (after_partial_read.c 0).w.content
        = (three_clients.c 0).w.content ++ str "client 1: hi" := by
  decide

/-- C3, on a failing input: for slot 0 the sender id `-0` is not negative, so
`broadcast_msg` builds the chat prefix; a live recipient is sent
`client 0: just left` and `client 0: just arrived` instead of the server
notices.  For the slots 1 to 63 the notices are the expected ones. -/
theorem broadcast_msg_notice_slot_zero :
    ((broadcast_msg others_of_zero 3 (-(0 : Int)) (str "just left\n") 10
        (fun _ => alloc_ok)).1 1).w.content = str "client 0: just left\n"
    ∧ ((broadcast_msg others_of_zero 3 (-(0 : Int)) (str "just arrived\n") 13
        (fun _ => alloc_ok)).1 1).w.content = str "client 0: just arrived\n"
    ∧ (∀ N : Fin 64, 1 ≤ N.val →
        ((broadcast_msg with_one_client 1 (-(N.val : Int)) (str "just left\n") 10
          (fun _ => alloc_ok)).1 0).w.content
          = str ("server: client " ++ Nat.repr N.val ++ " just left\n")
        ∧ ((broadcast_msg with_one_client 1 (-(N.val : Int)) (str "just arrived\n") 13
          (fun _ => alloc_ok)).1 0).w.content
          = str ("server: client " ++ Nat.repr N.val ++ " just arrived\n")) := by
  decide

/-- C4, on a failing input: `recv` fails on client 1, `cli_io` yields -1 (as it
does when `send` fails), and the loop, which tests `s == 0` and `s > 1` only, does nothing: the slot stays
live with its 4096-byte input buffer and nobody is sent a departure notice. -/
theorem listener_loop_ignores_io_error :
    live (three_clients.c 1)
    ∧ (cli_io (three_clients.c 1) true false (-1) none).2 = -1
    ∧ (cli_io (three_clients.c 1) false true (-1) none).2 = -1
    ∧ live (after_io_error.c 1)
    ∧ (after_io_error.c 1).r.size = 4096
    ∧ (after_io_error.c 0).w.content = (three_clients.c 0).w.content
    ∧ (after_io_error.c 2).w.content = (three_clients.c 2).w.content := by
  decide

/-- C5, on a failing input: clients 0, 1 and 2 are connected and client 2, which
holds the highest descriptor, closes.  `listener_hfd` returns the descriptor
of the lowest live slot, so `hfd` drops to that of slot 0 and the departure
notice reaches slot 0 only: slot 1 is live and is sent nothing. -/
theorem listener_loop_departure_skips_slot :
    Reachable 3 three_clients
    ∧ three_clients.hfd = 3 + 1 + 2
    ∧ (cli_io (three_clients.c 2) true false (-1) (some [])).2 = 0
    ∧ (after_close.c 2).r.size = 0
    ∧ live (three_clients.c 1)
    ∧ live (after_close.c 1)
    ∧ (after_close.c 1).w.content = (three_clients.c 1).w.content
    ∧ (after_close.c 0).w.content
        = (three_clients.c 0).w.content ++ str "server: client 2 just left\n"
    ∧ after_close.hfd = 3 + 1 + 0 := by
  refine ⟨⟨[env_accept 3 4, env_accept 3 5, env_accept 3 6], rfl, rfl⟩, ?_⟩
  decide

/-- C6: for a sender id `N ≥ 0`, a message `m` without NUL byte that is held
NUL-terminated (whatever follows the NUL) and of which the first `L` bytes
are sent, and a live recipient `id < n`, the `realloc`s up to that recipient
succeeding and no `size_t` computation wrapping around: after `broadcast_msg`
the content of the recipient's output buffer is its previous content, then
`client N: `, then the first `L` bytes of `m`, and its `len` has grown by the
length of `client N: ` plus `L`. -/
theorem broadcast_msg_appends (clients : Table) (n N : Int) (m rest : List Nat) (L : Nat)
    (alloc : Nat → Option Mem) (id : Nat)
    (hN : 0 ≤ N) (hm : ∀ b ∈ m, b ≠ 0) (hL : L ≤ m.length)
    (hid : (id : Int) < n) (hlive : live (clients id))
    (hgrow : ∀ j, j ≤ id → alloc j ≠ none)
    (hfit : fits (clients id).w (L + (str "client " ++ fmt_d N ++ str ": ").length)) :
    ((broadcast_msg clients n N (m ++ 0 :: rest) L alloc).1 id).w.content
        = (clients id).w.content ++ (str "client " ++ fmt_d N ++ str ": ") ++ m.take L
    ∧ ((broadcast_msg clients n N (m ++ 0 :: rest) L alloc).1 id).w.len
        = (clients id).w.len + ((str "client " ++ fmt_d N ++ str ": ").length + L) := by
  have hc := cstr_terminated m rest hm
  have hp := make_pfx_client N hN
  have := broadcast_msg_content clients n N (m ++ 0 :: rest) L alloc id hid hlive hgrow
    (by rw [hc]; exact hL) (by rw [hp]; exact hfit)
  rw [hc, hp] at this
  exact ⟨this.2, this.1⟩

/-- C6, the scenario of the specification: slots 0, 1 and 2 are live, client 1
sends `hello`; slots 0 and 2 hold `client 1: hello`. -/
theorem broadcast_msg_appends_witness :
    ((broadcast_msg three_fresh 3 1 (str "hello\n" ++ 0 :: []) 6 (fun _ => alloc_ok)).1 0).w.content
        = str "client 1: hello\n"
    ∧ ((broadcast_msg three_fresh 3 1 (str "hello\n" ++ 0 :: []) 6 (fun _ => alloc_ok)).1 2).w.content
        = str "client 1: hello\n" :=
  ⟨(broadcast_msg_appends three_fresh 3 1 (str "hello\n") [] 6 (fun _ => alloc_ok) 0
      (by decide) (by decide) (by decide) (by decide) (by decide) (fun _ _ => Option.some_ne_none _)
      (by decide)).1,
   (broadcast_msg_appends three_fresh 3 1 (str "hello\n") [] 6 (fun _ => alloc_ok) 2
      (by decide) (by decide) (by decide) (by decide) (by decide) (fun _ _ => Option.some_ne_none _)
      (by decide)).1⟩

/-- C7, as stated, fails: slot 0 is live, a client is accepted into slot 1, and
slot 1 finds the notice of its own arrival in its output buffer. -/
theorem listener_accept_notifies_self :
    ((listener_accept with_one_client 3 4 5 alloc_ok (fun _ => alloc_ok)).1 1).w.len
      ≠ (with_one_client 1).w.len
    ∧ ((listener_accept with_one_client 3 4 5 alloc_ok (fun _ => alloc_ok)).1 1).w.content
      = str "server: client 1 just arrived\n" := by
  decide

/-- C7, amended: when `accept` returns the descriptor of slot `i ≥ 1` and the
allocations succeed, `server: client i just arrived` is appended to the
output buffer of every live slot below the updated `highest_fd - listen_fd`,
and also to that of slot `i` itself, whose `len` grows by the length of the
notice. -/
theorem listener_accept_notice (clients : Table) (listen_fd highest_fd : Int) (i : Nat)
    (g : Mem) (alloc : Nat → Option Mem) (j : Nat)
    (hl : 0 ≤ listen_fd) (hi : 1 ≤ i)
    (halloc : ∀ k, k ≤ j → alloc k ≠ none)
    (hj : (j : Int) < highest_fd - listen_fd ∨ j ≤ i)
    (hlive : j = i ∨ live (clients j))
    (hfit : fits (clients j).w (13 + (str "server: client " ++ fmt_d i ++ str " ").length)) :
    ((listener_accept clients listen_fd highest_fd (listen_fd + 1 + i) (some g) alloc).1 j).w.content
      = (clients j).w.content ++ (str "server: client " ++ fmt_d i ++ str " just arrived\n")
    ∧ ((listener_accept clients listen_fd highest_fd (listen_fd + 1 + i) (some g) alloc).1 j).w.len
      = (clients j).w.len + (str "server: client " ++ fmt_d i ++ str " just arrived\n").length := by
  have hslot : (listen_fd + 1 + (i : Int) - listen_fd - 1).toNat = i := by omega
  have hsid : -(listen_fd + 1 + (i : Int) - listen_fd - 1) = -(i : Int) := by omega
  have hp := make_pfx_server i hi
  have hrs := buff_resize_ok (clients i).r 4096 g
  have hmsg : cstr (str "just arrived\n") = str "just arrived\n" := by decide
  have hmlen : (str "just arrived\n").length = 13 := by decide
  unfold listener_accept
  rw [if_pos (by omega)]
  simp only [hslot, hsid]
  rw [if_neg (by rw [hrs.1]; decide)]
  simp only
  have hw : (Table.set clients i { clients i with r := (buff_resize (clients i).r 4096 (some g)).1 } j).w
      = (clients j).w := by
    by_cases hji : j = i
    · subst hji; rw [Table.set_same]
    · rw [Table.set_other _ _ _ _ hji]
  have hlv : (Table.set clients i { clients i with r := (buff_resize (clients i).r 4096 (some g)).1 } j).r.size ≠ 0 := by
    by_cases hji : j = i
    · subst hji; rw [Table.set_same]; simp only; rw [hrs.2]; decide
    · rw [Table.set_other _ _ _ _ hji]
      rcases hlive with h | h
      · exact absurd h hji
      · exact h
  have := broadcast_msg_content
    (Table.set clients i { clients i with r := (buff_resize (clients i).r 4096 (some g)).1 })
    ((if listen_fd + 1 + (i : Int) > highest_fd then listen_fd + 1 + (i : Int) else highest_fd)
      - listen_fd)
    (-(i : Int)) (str "just arrived\n") 13 alloc j
    (by split <;> omega) hlv halloc (by rw [hmsg, hmlen]) (by rw [hw, hp]; exact hfit)
  rw [hmsg, hw, hp] at this
  have htake : (str "just arrived\n").take 13 = str "just arrived\n" := by decide
  have hcat : str " " ++ str "just arrived\n" = str " just arrived\n" := by decide
  rw [htake] at this
  constructor
  · rw [this.2]
    simp only [List.append_assoc, hcat]
  · rw [this.1]
    simp only [List.length_append, hmlen, ← hcat]
    omega

/-- C7, amended, for the table with slot 0 live and an accept into slot 1: the
recipient is slot 1 itself. -/
theorem listener_accept_notice_witness :
    ((listener_accept with_one_client 3 4 (3 + 1 + (1 : Nat)) (some (fun _ => 170))
        (fun _ => alloc_ok)).1 1).w.content
      = (with_one_client 1).w.content ++ (str "server: client " ++ fmt_d (1 : Nat) ++ str " just arrived\n") :=
  (listener_accept_notice with_one_client 3 4 1 (fun _ => 170) (fun _ => alloc_ok) 1
    (by decide) (by decide) (fun _ _ => Option.some_ne_none _) (Or.inr (by decide))
    (Or.inl rfl) (by decide)).1

/-- C8, on a failing input: client 1 has sent `a` and `b` in one `recv`; `a` was
relayed and `b` is left over in the input buffer.  When `c` arrives, `strstr`
starts at the new bytes and `cli_io` returns 4: the 4 bytes the loop
broadcasts and removes hold two line feeds. -/
theorem cli_io_length_spans_two_lines :
    (after_two_lines.c 1).r.content = str "b\n"
    ∧ (cli_io (after_two_lines.c 1) true false (-1) (some (str "c\n"))).2 = 4
    ∧ (cli_io (after_two_lines.c 1) true false (-1) (some (str "c\n"))).1.r.content.take 4
        = str "b\nc\n"
    ∧ ((cli_io (after_two_lines.c 1) true false (-1)
          (some (str "c\n"))).1.r.content.take 4).count LF = 2 := by
  decide

/-- C9, on a failing input: after clients 0, 1 and 2 have connected and client 2
has closed, the loop is in a state where slot 1 is live with pending output,
yet `listener_select` puts its descriptor 5 neither in the read set nor in
the write set, because `hfd` has dropped to the descriptor of slot 0. -/
theorem listener_select_misses_live_slot :
    Reachable 3 after_close
    ∧ live (after_close.c 1)
    ∧ (after_close.c 1).w.len ≠ 0
    ∧ (3 + 1 + 1 : Int) ∉ (listener_select after_close.c 3 after_close.hfd).1
    ∧ (3 + 1 + 1 : Int) ∉ (listener_select after_close.c 3 after_close.hfd).2 := by
  refine ⟨⟨[env_accept 3 4, env_accept 3 5, env_accept 3 6, env_recv 6 (some [])], rfl, rfl⟩, ?_⟩
  decide

/-- C11: a buffer `b` with `len ≤ size` (`size` a `size_t` value) still has
`len ≤ size` after `buff_resize` (whether `realloc` succeeds or fails), after
`buff_clr`, after `buff_read` (which receives at most `size - len` bytes),
after `buff_write` for a result of `send` that is at most `len`, after
`broadcast_msg` when `b` is the output buffer of a slot and no `size_t`
computation wraps around (whether the call returns or is stopped by a failed
growth) or the input buffer of a slot (it is left as it is), and after the
removal of `s ≤ len` bytes from its front, in particular of the count that
`cli_io` has returned for it in the loop. -/
theorem buffer_invariant_kept (b : buffer) (hb : b.len ≤ b.size) (hs : b.size < SIZE_MOD) :
    (∀ (new_size : Nat) (a : Option Mem),
        (buff_resize b new_size a).1.len ≤ (buff_resize b new_size a).1.size)
    ∧ (buff_clr b).len ≤ (buff_clr b).size
    ∧ (∀ rcv : Option (List Nat), (buff_read b rcv).1.len ≤ (buff_read b rcv).1.size)
    ∧ (∀ snd : Int, snd ≤ b.len → (buff_write b snd).1.len ≤ (buff_write b snd).1.size)
    ∧ (∀ (clients : Table) (n sender_id : Int) (msg : List Nat) (len : Nat)
        (alloc : Nat → Option Mem) (j : Nat),
        (clients j).w = b → fits b (size_add len (make_pfx sender_id).length) →
        ((broadcast_msg clients n sender_id msg len alloc).1 j).w.len
          ≤ ((broadcast_msg clients n sender_id msg len alloc).1 j).w.size)
    ∧ (∀ (clients : Table) (n sender_id : Int) (msg : List Nat) (len : Nat)
        (alloc : Nat → Option Mem) (j : Nat),
        (clients j).r = b → ((broadcast_msg clients n sender_id msg len alloc).1 j).r = b)
    ∧ (∀ s : Nat, s ≤ b.len → (remove_front b s).len ≤ (remove_front b s).size)
    ∧ (∀ (w : buffer) (readable writable : Bool) (snd : Int) (rcv : Option (List Nat)),
        1 < (cli_io { r := b, w := w } readable writable snd rcv).2 →
        (remove_front (cli_io { r := b, w := w } readable writable snd rcv).1.r
            (cli_io { r := b, w := w } readable writable snd rcv).2.toNat).len
          ≤ (remove_front (cli_io { r := b, w := w } readable writable snd rcv).1.r
            (cli_io { r := b, w := w } readable writable snd rcv).2.toNat).size) := by
  refine ⟨fun n a => buff_resize_inv b n a hb, buff_clr_inv b,
    fun rcv => buff_read_inv b rcv hb hs, ?_, ?_, ?_, ?_, ?_⟩
  · intro snd hsnd
    exact buff_write_inv b snd hb (by omega) hsnd
  · intro clients n sender_id msg len alloc j hw hfit
    unfold broadcast_msg
    simp only
    rcases bcast_loop_slot (make_pfx sender_id) msg
        (size_add len (make_pfx sender_id).length) alloc n.toNat clients 0 j with h | h
    · rw [h, hw]
      exact hb
    · rw [h]
      exact bcast_one_inv _ _ _ _ _ (by rw [hw]; exact hb) (by rw [hw]; exact hfit)
  · intro clients n sender_id msg len alloc j hr
    unfold broadcast_msg
    simp only
    rw [(bcast_loop_r _ _ _ _ _ _ _ j).1, hr]
  · intro s hle
    exact remove_front_inv b s hb hs hle
  · intro w readable writable snd rcv h1
    obtain ⟨h2, h3, h4⟩ := cli_io_ret_le { r := b, w := w } readable writable snd rcv hb hs h1
    exact remove_front_inv _ _ h2 h3 h4

/-- C11, for an empty output buffer that is the one of recipient 1 when its
growth fails inside `broadcast_msg`, and for the buffer holding `hello` from
which `send` takes 2 bytes. -/
theorem buffer_invariant_kept_witness :
    (broadcast_msg three_fresh 3 2 (str "hello\n") 6 alloc_fails_at_1).2 = none
    ∧ ((broadcast_msg three_fresh 3 2 (str "hello\n") 6 alloc_fails_at_1).1 1).w.len
        ≤ ((broadcast_msg three_fresh 3 2 (str "hello\n") 6 alloc_fails_at_1).1 1).w.size
    ∧ (buff_write hello_buffer 2).1.len ≤ (buff_write hello_buffer 2).1.size :=
  ⟨by decide,
   (buffer_invariant_kept buffer.zero (by decide) (by decide)).2.2.2.2.1 three_fresh 3 2
      (str "hello\n") 6 alloc_fails_at_1 1 rfl (by decide),
   (buffer_invariant_kept hello_buffer (by decide) (by decide)).2.2.2.1 2 (by decide)⟩

/-- C12, on a failing input: a buffer of capacity 10 that holds 2 bytes is
shrunk to the capacity 5, which is still above its `len`.  `buff_resize`
compares the new capacity with `size`, not with `len`, and sets `len` to 5
instead of leaving it at 2. -/
theorem buff_resize_shrink_sets_len :
    (buff_resize { size := 10, len := 2, data := NULL } 5 alloc_ok).2 = 0
    ∧ (buff_resize { size := 10, len := 2, data := NULL } 5 alloc_ok).1.size = 5
    ∧ (buff_resize { size := 10, len := 2, data := NULL } 5 alloc_ok).1.len = 5
    ∧ (buff_resize { size := 10, len := 2, data := NULL } 5 alloc_ok).1.len ≠ min 2 5 := by
  decide

/-- C13: `buff_resize(buff, buff.size)` returns 0 and gives the buffer back as
it is, whatever `realloc` would have answered (it is not called); applying it
a second time changes nothing.  More generally a second `buff_resize` to the
capacity `n` after a first one that succeeded is such a no-op, and so is one
after a first one that failed if `realloc` fails again. -/
theorem buff_resize_same_size (b : buffer) (a1 a2 : Option Mem) (n : Nat) (g : Mem) :
    buff_resize b b.size a1 = (b, 0)
    ∧ buff_resize (buff_resize b b.size a1).1 b.size a2 = buff_resize b b.size a1
    ∧ buff_resize (buff_resize b n (some g)).1 n a2 = ((buff_resize b n (some g)).1, 0)
    ∧ (buff_resize (buff_resize b n a1).1 n a1).1 = (buff_resize b n a1).1 := by
  have h1 : ∀ (c : buffer) (a : Option Mem), buff_resize c c.size a = (c, 0) := by
    intro c a
    unfold buff_resize
    rw [if_neg (by simp)]
  have h3 : buff_resize (buff_resize b n (some g)).1 n a2 = ((buff_resize b n (some g)).1, 0) := by
    have hs := (buff_resize_ok b n g).2
    have := h1 (buff_resize b n (some g)).1 a2
    rwa [hs] at this
  refine ⟨h1 b a1, ?_, h3, ?_⟩
  · rw [h1 b a1]
    exact h1 b a2
  · cases a1 with
    | some g1 =>
      have hs := (buff_resize_ok b n g1).2
      have := h1 (buff_resize b n (some g1)).1 (some g1)
      rw [hs] at this
      rw [this]
    | none =>
      by_cases hn : n ≠ b.size
      · rw [buff_resize_fail b n hn]
        simp only
        unfold buff_resize
        split
        · rfl
        · rfl
      · have : n = b.size := not_not.mp hn
        subst this
        rw [h1 b none]
        simp only
        rw [h1 b none]

/-- C14: for a buffer whose `len` is a `size_t` value and a result `n` of `send`
with `0 < n ≤ len`, `buff_write` leaves `len - n` valid bytes, which are the
previous content without its first `n` bytes, leaves `size` as it is and
returns a positive value; for `n ≤ 0` the buffer is unchanged and `n` is
returned. -/
theorem buff_write_shifts (b : buffer) (n : Int) (hlen : b.len < SIZE_MOD) :
    (0 < n → n ≤ b.len →
      (buff_write b n).1.len = b.len - n.toNat
      ∧ (buff_write b n).1.content = b.content.drop n.toNat
      ∧ (buff_write b n).1.size = b.size
      ∧ 0 < (buff_write b n).2)
    ∧ (n ≤ 0 → buff_write b n = (b, n)) := by
  constructor
  · intro h0 hle
    unfold buff_write
    rw [if_pos h0]
    have hs : size_sub b.len n.toNat = b.len - n.toNat := size_sub_eq _ _ hlen (by omega)
    simp only [hs]
    refine ⟨trivial, ?_, trivial, by decide⟩
    unfold buffer.content
    simp only
    rw [read_bytes_drop _ _ _ (by omega)]
    unfold read_bytes
    apply List.map_congr_left
    intro i hi
    have hi2 := List.mem_range.mp hi
    rw [ft_memmove_spec, if_pos (by omega)]
    congr 1
    omega
  · intro h
    unfold buff_write
    rw [if_neg (by omega)]

/-- C14, for the buffer holding `hello`: after `send` has taken 2 bytes the
content is `llo`; after a failed `send` the buffer is unchanged. -/
theorem buff_write_shifts_witness :
    (buff_write hello_buffer 2).1.content = (str "hello").drop 2
    ∧ buff_write hello_buffer (-1) = (hello_buffer, -1) :=
  ⟨((buff_write_shifts hello_buffer 2 (by decide)).1 (by decide) (by decide)).2.1,
   (buff_write_shifts hello_buffer (-1) (by decide)).2 (by decide)⟩

/-- C15, as stated, fails: clients 0 and 1 are both readable and writable; the
pass calls `send` for slot 0, `recv` for slot 0, and only then `send` for
slot 1: a write attempt follows a read attempt. -/
theorem listener_loop_write_after_read :
    loop_body_calls 3 (env_chat 4) three_clients
      = [io_call.send 0, io_call.recv 0, io_call.send 1, io_call.recv 1] := by
  decide

/-- C15, amended: in one pass of the loop the calls are ordered by slot, and for
one slot the `send` comes before the `recv`, each being made at most once: no
write attempt on a connection follows a read attempt on the same connection or
on a connection of a higher slot. -/
theorem listener_loop_calls_ordered (fd : Int) (env : Env) (st : Server) :
    (loop_body_calls fd env st).Pairwise serviced_before := by
  unfold loop_body_calls
  exact (service_loop_calls_sorted fd _ _ env _ _ 0).1

/-- C16: `broadcast_msg` leaves the input buffer of every slot as it is, leaves
every slot that is not live and every slot at or above `n` entirely unchanged,
and a slot is live after the call exactly when it was live before. -/
theorem broadcast_msg_frame (clients : Table) (n sender_id : Int) (msg : List Nat) (len : Nat)
    (alloc : Nat → Option Mem) (j : Nat) :
    ((broadcast_msg clients n sender_id msg len alloc).1 j).r = (clients j).r
    ∧ (¬ live (clients j) → (broadcast_msg clients n sender_id msg len alloc).1 j = clients j)
    ∧ (n ≤ (j : Int) → (broadcast_msg clients n sender_id msg len alloc).1 j = clients j)
    ∧ (live ((broadcast_msg clients n sender_id msg len alloc).1 j) ↔ live (clients j)) := by
  unfold broadcast_msg
  simp only
  obtain ⟨h1, h2⟩ := bcast_loop_r (make_pfx sender_id) msg
    (size_add len (make_pfx sender_id).length) alloc n.toNat clients 0 j
  refine ⟨h1, ?_, ?_, ?_⟩
  · intro hl
    apply h2
    unfold live at hl
    exact not_not.mp hl
  · intro hn
    exact bcast_loop_frame _ _ _ _ _ _ _ _ (Or.inr (by omega))
  · unfold live
    rw [h1]

/-- C17, on a failing input: slots 0, 1 and 2 are live and the bound is the
descriptor of slot 1.  `listener_hfd` returns the descriptor of slot 0, the
lowest live slot, not that of slot 1 (with no live slot it returns
`listener_fd`).  After the loop has torn down the client with the highest
descriptor, slot 1 is live with an index that is not below `hfd - fd`. -/
theorem listener_hfd_returns_lowest :
    live (three_fresh 0) ∧ live (three_fresh 1)
    ∧ listener_hfd three_fresh 3 (3 + 2) = 3 + 1 + 0
    ∧ listener_hfd three_fresh 3 (3 + 2) ≠ 3 + 1 + 1
    ∧ listener_hfd (fun _ => client.zero) 3 (3 + 2) = 3
    ∧ live (after_close.c 1) ∧ ¬ ((1 : Int) < after_close.hfd - 3) := by
  decide

/-- C18, on failing inputs, every growth succeeding.  A recipient with no output
buffer is sent the first 2 bytes of the 4-byte string `a`, line feed, `b`,
line feed: the buffer is grown to 13 bytes and the second `strcpy` stores up to
offset 14.  A recipient with exactly 16 free bytes is sent a 16-byte message
without growth: the terminating NUL is stored at offset 16.  In the loop, the
first client sends a short line followed by a longer one in one `recv`: its
own output buffer is grown to 37 bytes and `strcpy` stores up to offset 43. -/
theorem broadcast_msg_stores_past_size :
    bcast_one_stores fresh_client (make_pfx 1) (str "a\nb\n" ++ [0])
        (size_add 2 (make_pfx 1).length) alloc_ok
      = (List.range' 0 11 ++ List.range' 10 5, 13)
    ∧ (bcast_one fresh_client (make_pfx 1) (str "a\nb\n" ++ [0])
        (size_add 2 (make_pfx 1).length) alloc_ok).1.w.size = 13
    ∧ (bcast_one fresh_client (make_pfx 1) (str "a\nb\n" ++ [0])
        (size_add 2 (make_pfx 1).length) alloc_ok).1.w.data 14 = 0
    ∧ bcast_one_stores exact_fit_client (make_pfx 1) (str "hello\n" ++ [0])
        (size_add 6 (make_pfx 1).length) alloc_ok
      = (List.range' 0 11 ++ List.range' 10 7, 16)
    ∧ two_line_read.2 = 2
    ∧ bcast_one_stores two_line_read.1 (make_pfx 0)
        (read_bytes two_line_read.1.r.data 0 (two_line_read.1.r.len + 1))
        (size_add 2 (make_pfx 0).length) alloc_ok
      = (List.range' 23 11 ++ List.range' 33 11, 37) := by
  decide

/-- C19, on failing inputs: when `recv` fills the free part of the buffer
(`n = size - len`), `buff_read` sets `len` to `size` and stores the
terminating NUL at offset `size`, one past the last byte of the storage. -/
theorem buff_read_terminator_at_size (b : buffer) (pending : List Nat)
    (h1 : b.len < b.size) (h2 : b.size < SIZE_MOD)
    (h3 : b.size - b.len ≤ pending.length) :
    (buff_read b (some pending)).2 = ((b.size - b.len : Nat) : Int)
    ∧ (buff_read b (some pending)).1.size = b.size
    ∧ (buff_read b (some pending)).1.len = b.size
    ∧ (buff_read b (some pending)).1.data b.size = 0 := by
  have hsub := size_sub_eq b.size b.len h2 (by omega)
  have hl : (pending.take (size_sub b.size b.len)).length = b.size - b.len := by
    rw [hsub, List.length_take]
    omega
  unfold buff_read
  simp only
  rw [hl, if_pos (by omega), size_add_eq _ _ (by omega)]
  have : b.len + (b.size - b.len) = b.size := by omega
  simp only [this]
  exact ⟨trivial, trivial, trivial, store_same _ _ _⟩

/-- C19, for a fresh input buffer of 4096 bytes and a `recv` of 4096 bytes: the
NUL is stored at offset 4096. -/
theorem buff_read_terminator_at_size_witness :
    fresh_client.r.size = 4096
    ∧ (buff_read fresh_client.r (some (List.replicate 4096 65))).1.size = fresh_client.r.size
    ∧ (buff_read fresh_client.r (some (List.replicate 4096 65))).1.len = fresh_client.r.size
    ∧ (buff_read fresh_client.r (some (List.replicate 4096 65))).1.data fresh_client.r.size
        = 0 :=
  ⟨rfl, (buff_read_terminator_at_size fresh_client.r (List.replicate 4096 65) (by decide)
    (by decide) (by rw [List.length_replicate]; decide)).2⟩

/-- C20: for every storage, offsets `dst` and `src` and count `n` (whatever the
overlap), after `ft_memmove` the `n` bytes from `dst` on are the `n` bytes
that were at `src` before the call, and every byte outside `[dst, dst + n)` is
unchanged. -/
theorem ft_memmove_moves (m : Mem) (dst src n : Nat) :
    (∀ i, i < n → ft_memmove m dst src n (dst + i) = m (src + i))
    ∧ read_bytes (ft_memmove m dst src n) dst n = read_bytes m src n
    ∧ (∀ j, (j < dst ∨ dst + n ≤ j) → ft_memmove m dst src n j = m j) := by
  refine ⟨?_, ?_, ?_⟩
  · intro i hi
    rw [ft_memmove_spec, if_pos (by omega)]
    congr 1
    omega
  · unfold read_bytes
    apply List.map_congr_left
    intro i hi
    have hi2 := List.mem_range.mp hi
    rw [ft_memmove_spec, if_pos (by omega)]
    congr 1
    omega
  · intro j hj
    rw [ft_memmove_spec, if_neg (by omega)]

end MiniServ
